import Mathlib

/-!
Verification of the nesfab mid-to-back-end optimization core against its
natural-language specification.  The developments below shallowly embed the
relevant functions of `src/type.cpp` and `src/o_unused.cpp` (the SSA dead-code
eliminator, the assembly graph passes, block ordering and liveness) as
executable Lean definitions, and prove the specification's claims about them.

The file is organised as: all definitions first, then all theorems.
-/

namespace NesType

/-- The `type_name_t` enumeration, as used by `type.cpp`.  Order matches the
constants appearing in `to_string`. -/
inductive TypeName where
  | arrayThunk | structThunk
  | void | bool | int | real
  | f1 | f2 | f3
  | u10 | u20 | u30 | u11 | u21 | u31 | u12 | u22 | u32 | u13 | u23 | u33
  | s10 | s20 | s30 | s11 | s21 | s31 | s12 | s22 | s32 | s13 | s23 | s33
  | array | structT | buffer | bankedPtr | ptrT | fnT
  deriving DecidableEq, Repr

/-- Numeric code of a `type_name_t` constant (the enum value used as the hash
seed in `type_t::hash`).  Only injectivity on equal names matters. -/
def TypeName.code : TypeName → Nat
  | .arrayThunk => 0 | .structThunk => 1
  | .void => 2 | .bool => 3 | .int => 4 | .real => 5
  | .f1 => 6 | .f2 => 7 | .f3 => 8
  | .u10 => 9 | .u20 => 10 | .u30 => 11 | .u11 => 12 | .u21 => 13 | .u31 => 14
  | .u12 => 15 | .u22 => 16 | .u32 => 17 | .u13 => 18 | .u23 => 19 | .u33 => 20
  | .s10 => 21 | .s20 => 22 | .s30 => 23 | .s11 => 24 | .s21 => 25 | .s31 => 26
  | .s12 => 27 | .s22 => 28 | .s32 => 29 | .s13 => 30 | .s23 => 31 | .s33 => 32
  | .array => 33 | .structT => 34 | .buffer => 35
  | .bankedPtr => 36 | .ptrT => 37 | .fnT => 38

/-- Whether the tail of a `type_t` with this name stores types
(`has_type_tail` of `type.hpp`): true for arrays (the element type) and
function types (argument and return types), as witnessed by the accesses in
`type_t::operator==`, `type_t::hash` and `to_string`. -/
def has_type_tail : TypeName → Bool
  | .array => true
  | .fnT => true
  | _ => false

/-- Whether the tail stores groups (`has_group_tail`): true for the two
pointer types, as witnessed by `to_string` and `type_t::ptr`. -/
def has_group_tail : TypeName → Bool
  | .ptrT => true
  | .bankedPtr => true
  | _ => false

/-- Modelled from the spec: `is_ptr` of `type_name.hpp` (not under `src/`);
the pointer types are `TYPE_PTR` and `TYPE_BANKED_PTR`. -/
def is_ptr : TypeName → Bool
  | .ptrT => true
  | .bankedPtr => true
  | _ => false

/-- A `type_t` value: name, size field, and the interned tail.  The C++ tail
is a single pointer reinterpreted by name; here the type tail, group tail and
the array-thunk payload (source position and size-expression id) are separate
fields; equality and hashing read the tails only through
`has_type_tail`/`has_group_tail`, exactly as the source does.  `sinfo`
stands for the `struct_t const*` tail of struct types. -/
inductive type_t where
  | mk (name : TypeName) (size : Nat) (tTail : List type_t) (gTail : List Nat)
       (ps : Nat) (expr : Nat) (sinfo : Nat)

def type_t.name : type_t → TypeName
  | .mk n _ _ _ _ _ _ => n

def type_t.size : type_t → Nat
  | .mk _ s _ _ _ _ _ => s

def type_t.tTail : type_t → List type_t
  | .mk _ _ t _ _ _ _ => t

def type_t.gTail : type_t → List Nat
  | .mk _ _ _ g _ _ _ => g

def type_t.ps : type_t → Nat
  | .mk _ _ _ _ p _ _ => p

def type_t.expr : type_t → Nat
  | .mk _ _ _ _ _ e _ => e

/-- `type_tail_size`: 1 for arrays (the element type), `m_size` for function
types. -/
def type_tail_size (n : TypeName) (size : Nat) : Nat :=
  match n with
  | .array => 1
  | .fnT => size
  | _ => 0

/-- `group_tail_size`: `m_size` for pointer types. -/
def group_tail_size (n : TypeName) (size : Nat) : Nat :=
  match n with
  | .ptrT => size
  | .bankedPtr => size
  | _ => 0

mutual

/-- `type_t::operator==` (type.cpp:90): equal iff names and sizes agree and,
when the name has a type (resp. group) tail, the first `type_tail_size`
(resp. `group_tail_size`) tail elements agree.  `std::equal` over
out-of-range tails is undefined in C++; the model compares as many elements
as both tails provide (interned tails always have the full length). -/
def typeEq : type_t → type_t → Bool
  | .mk n1 s1 tt1 gt1 _ _ _, .mk n2 s2 tt2 gt2 _ _ _ =>
    if n1 = n2 ∧ s1 = s2 then
      if has_type_tail n1 then typeEqFirst (type_tail_size n1 s1) tt1 tt2
      else if has_group_tail n1 then
        decide (gt1.take (group_tail_size n1 s1) = gt2.take (group_tail_size n1 s1))
      else true
    else false
termination_by t1 _ => sizeOf t1
decreasing_by all_goals simp_wf <;> omega

/-- Element-wise comparison of the first `k` entries of two type tails. -/
def typeEqFirst : Nat → List type_t → List type_t → Bool
  | 0, _, _ => true
  | _ + 1, [], [] => true
  | k + 1, a :: as, b :: bs => typeEq a b && typeEqFirst k as bs
  | _ + 1, _, _ => false
termination_by _ as _ => sizeOf as
decreasing_by all_goals simp_wf <;> omega

end

mutual

/-- `type_t::hash` (type.cpp:174): seed with the name's enum value, combine
the size, then combine the hashes of the type-tail elements (or the group
values).  `hc` stands for the external `rh::hash_combine`. -/
def typeHash (hc : Nat → Nat → Nat) : type_t → Nat
  | .mk n s tt gt _ _ _ =>
    let h := hc (TypeName.code n) s
    if has_type_tail n then typeHashFirst hc h (type_tail_size n s) tt
    else if has_group_tail n then (gt.take (group_tail_size n s)).foldl hc h
    else h
termination_by t => sizeOf t
decreasing_by all_goals simp_wf <;> omega

/-- The loop `for(i < type_tail_size) hash = hash_combine(hash, type(i).hash())`. -/
def typeHashFirst (hc : Nat → Nat → Nat) : Nat → Nat → List type_t → Nat
  | h, 0, _ => h
  | h, _ + 1, [] => h
  | h, k + 1, t :: ts => typeHashFirst hc (hc h (typeHash hc t)) k ts
termination_by _ _ ts => sizeOf ts
decreasing_by all_goals simp_wf <;> omega

end

/-- `cast_result_t`. -/
inductive cast_result_t where
  | fail | nop | boolify | round_real | convert_int | promote | truncate
  deriving DecidableEq, Repr

/-- The `type_t` denoted by the bare name `TYPE_BOOL` (for `to == TYPE_BOOL`). -/
def typeBool : type_t := .mk .bool 0 [] [] 0 0 0

/-- `can_cast` (type.cpp:270).  The arithmetic classification helpers
(`is_arithmetic`, `frac_bytes`, `is_arithmetic_subset`) live in headers
outside `src/` and are passed in as parameters; `is_ptr` is pinned above. -/
def can_cast (is_arithmetic : TypeName → Bool) (frac_bytes : TypeName → Nat)
    (is_arithmetic_subset : TypeName → TypeName → Bool)
    (fromT toT : type_t) (implicit : Bool) : cast_result_t :=
  if typeEq fromT toT then .nop
  else if is_ptr fromT.name || is_ptr toT.name then .fail
  else if is_arithmetic fromT.name && typeEq toT typeBool then .boolify
  else if fromT.name = .real ∧ implicit ∧ frac_bytes toT.name = 0 then .fail
  else if fromT.name = .real ∧ is_arithmetic toT.name then .round_real
  else if fromT.name = .int ∧ is_arithmetic toT.name = true then .convert_int
  else if is_arithmetic fromT.name && is_arithmetic toT.name then
    if is_arithmetic_subset fromT.name toT.name then .promote
    else if implicit then .fail else .truncate
  else .fail

/-- `type_t::array` (type.cpp:110): a concrete array type. -/
def type_t.array (elem : type_t) (size : Nat) : type_t :=
  .mk .array size [elem] [] 0 0 0

/-- `type_t::array_thunk` (type.cpp:116): an unevaluated array type carrying
the source position, the element type and the (id of the) size expression. -/
def type_t.array_thunk (ps : Nat) (elem : type_t) (expr : Nat) : type_t :=
  .mk .arrayThunk 0 [elem] [] ps expr 0

/-- The element type of an array or array thunk (`elem_type` /
`array_thunk().elem_type`): the first type-tail entry. -/
def type_t.elem_type (t : type_t) : type_t :=
  t.tTail.headD (.mk .void 0 [] [] 0 0 0)

/-- `has_array` (type.cpp:442).  `structHasArrayMember` stands for the
external `struct_t::has_array_member()` table, keyed by the struct tail. -/
def has_array (structHasArrayMember : Nat → Bool) : type_t → Bool
  | .mk .structT _ _ _ _ _ si => structHasArrayMember si
  | .mk .arrayThunk _ _ _ _ _ _ => true
  | .mk .array _ _ _ _ _ _ => true
  | _ => false

/-- The errors `dethunkify` can raise: `std::runtime_error` for a non-struct
global where a struct was expected, and user-facing `compiler_error`s
carrying a source position.  The C++ messages are
"Arrays cannot be multidimensional." (thunk branch),
"Invalid array size." and "Arrays cannot be multi-dimensional." (array
branch). -/
inductive DethunkErr where
  | expectedStruct (globalName : Nat)
  | compilerError (ps : Nat) (msg : Nat)
  deriving DecidableEq, Repr

/-- Message codes for the three `compiler_error` texts of `dethunkify`. -/
def msgMultidimensional : Nat := 0
def msgInvalidSize : Nat := 1
def msgMultiDimensional : Nat := 2

/-- `dethunkify` (type.cpp:455).  External collaborators are parameters:
`interp expr` is `interpret_expr(...).whole()` (the evaluated size, an
unsigned), `gclassIsStruct`/`structOf` resolve the struct-thunk global and
`sA` is `struct_t::has_array_member`.  The `TYPE_ARRAY` case with an empty
tail cannot arise from the factories and is returned unchanged. -/
def dethunkify (interp : Nat → Nat) (gclassIsStruct : Nat → Bool)
    (structOf : Nat → Nat) (sA : Nat → Bool) :
    type_t → Nat → Except DethunkErr type_t
  | .mk .structThunk _ _ _ _ _ si, _ =>
    if gclassIsStruct si then .ok (.mk .structT 0 [] [] 0 0 (structOf si))
    else .error (.expectedStruct si)
  | t@(.mk .arrayThunk _ _ _ ps expr _), _ =>
    let size := interp expr
    if has_array sA (type_t.elem_type t) then
      .error (.compilerError ps msgMultidimensional)
    else if size ≤ 0 ∨ size > 256 then
      .error (.compilerError ps msgInvalidSize)
    else .ok (type_t.array (type_t.elem_type t) size)
  | .mk .array s (e :: _) _ _ _ _, srcPs => do
    let elem ← dethunkify interp gclassIsStruct structOf sA e srcPs
    if has_array sA elem then
      .error (.compilerError srcPs msgMultiDimensional)
    else .ok (type_t.array elem s)
  | .mk .array s [] gt ps expr si, _ => .ok (.mk .array s [] gt ps expr si)
  | .mk .fnT s tt _ _ _ _, srcPs => do
    let args ← tt.attach.mapM (fun x =>
      dethunkify interp gclassIsStruct structOf sA x.1 srcPs)
    .ok (.mk .fnT s args [] 0 0 0)
  | .mk n s tt gt ps expr si, _ => .ok (.mk n s tt gt ps expr si)
termination_by t _ => sizeOf t
decreasing_by
  · simp_wf
    omega
  · simp_wf
    have := List.sizeOf_lt_of_mem x.2
    omega

end NesType

namespace AsmFinish

/-- A deferred label lookup enqueued by `append_code` (`to_lookup`): the
node, the output-slot index reserved for the edge, and the label to
resolve. -/
structure lookup_t where
  node : Nat
  output : Nat
  label : Nat
  deriving DecidableEq, Repr

/-- The edge structure of an `asm_graph_t` as far as `finish_appending`
touches it: per node, the vector of output-edge targets (`none` is a null
slot awaiting resolution) and the vector of input nodes. -/
structure graph_t where
  outputs : Nat → List (Option Nat)
  inputs : Nat → List Nat

/-- The fatal construction error of `finish_appending`: the C++ code throws
`std::runtime_error(fmt("Missing label % in assembly.", lookup.label))`,
a message interpolating the label name; the model keeps the label
structured. -/
inductive AsmErr where
  | missingLabel (label : Nat)
  deriving DecidableEq, Repr

/-- `asm_node_t::remove_outputs_input`'s removal of one occurrence from an
input vector: `std::find`, swap with the back, `pop_back`. -/
def removeSwapBack (x : Nat) (l : List Nat) : List Nat :=
  match l.findIdx? (· = x) with
  | none => l
  | some j => (l.set j (l.getLastD 0)).dropLast

/-- `asm_node_t::replace_output` (o_unused.cpp:226): detach the old target's
input entry, register the node as an input of the new target, and overwrite
the output slot. -/
def replace_output (g : graph_t) (nd slot : Nat) (withN : Option Nat) :
    graph_t :=
  let old := (g.outputs nd).getD slot none
  let g1 := match old with
    | some t =>
      { g with inputs := Function.update g.inputs t (removeSwapBack nd (g.inputs t)) }
    | none => g
  let g2 := match withN with
    | some w =>
      { g1 with inputs := Function.update g1.inputs w (g1.inputs w ++ [nd]) }
    | none => g1
  { g2 with outputs := Function.update g2.outputs nd ((g2.outputs nd).set slot withN) }

/-- `asm_graph_t::finish_appending` (o_unused.cpp:323): resolve each
deferred lookup through `label_map`, throwing on the first absent label. -/
def finish_appending (label_map : Nat → Option Nat) :
    List lookup_t → graph_t → Except AsmErr graph_t
  | [], g => .ok g
  | lk :: rest, g =>
    match label_map lk.label with
    | some target =>
      finish_appending label_map rest (replace_output g lk.node lk.output (some target))
    | none => .error (.missingLabel lk.label)

end AsmFinish

namespace SSADce

/-- The SSA graph as `o_remove_no_effect` observes it: per node, the opcode
attributes it tests (`op() == SSA_if`, the `SSAF_WRITE_GLOBALS` and
`SSAF_IMPURE` flag bits, `ssa_input0_class(op) == INPUT_LINK`) and the list
of input nodes traversed by `for_each_node_input`. -/
structure ssa_graph (n : Nat) where
  isIf : Fin n → Bool
  writeGlobals : Fin n → Bool
  impure : Fin n → Bool
  input0Link : Fin n → Bool
  inputs : Fin n → List (Fin n)

/-- The root-of-effect test of the seeding loop (o_unused.cpp:132). -/
def root {n : Nat} (g : ssa_graph n) (i : Fin n) : Bool :=
  g.isIf i || g.writeGlobals i || g.impure i || g.input0Link i

/-- The body of `for_each_node_input` inside the drain loop: for each input
still flagged `PRUNED` (not yet marked live), clear the flag and push it.
`marked` is the set of nodes whose `PRUNED` flag has been cleared; the
worklist is a stack with its head on top. -/
def pushInputs {n : Nat} :
    List (Fin n) → Finset (Fin n) → List (Fin n) → Finset (Fin n) × List (Fin n)
  | [], m, wl => (m, wl)
  | i :: is, m, wl =>
    if i ∈ m then pushInputs is m wl
    else pushInputs is (insert i m) (i :: wl)

/-- The worklist drain of `o_remove_no_effect` (o_unused.cpp:142), with
explicit fuel.  `drain_fuel` below always suffices. -/
def drain {n : Nat} (g : ssa_graph n) :
    Nat → Finset (Fin n) → List (Fin n) → Finset (Fin n) × List (Fin n)
  | 0, m, wl => (m, wl)
  | _ + 1, m, [] => (m, [])
  | fuel + 1, m, h :: rest =>
    let p := pushInputs (g.inputs h) m rest
    drain g fuel p.1 p.2

/-- The seeding loop (o_unused.cpp:129): clear `PRUNED` on every
root-of-effect node and push it. -/
def seed {n : Nat} (g : ssa_graph n) : Finset (Fin n) × List (Fin n) :=
  (List.finRange n).foldl
    (fun p i => if root g i then (insert i p.1, i :: p.2) else p)
    (∅, [])

/-- Fuel that strictly dominates the drain's decreasing measure
`(n - marked.card) * (n + 1) + worklist.length`. -/
def drain_fuel (n : Nat) : Nat := (n + 1) * (n + 1) + n + 1

/-- `o_remove_no_effect`'s fixed point: the set of nodes whose `PRUNED`
flag ends up cleared (the survivors). -/
def survivors {n : Nat} (g : ssa_graph n) : Finset (Fin n) :=
  (drain g (drain_fuel n) (seed g).1 (seed g).2).1

/-- The final sweep of `o_remove_no_effect` (o_unused.cpp:158): every node
still flagged `PRUNED` is pruned. -/
def removedNodes {n : Nat} (g : ssa_graph n) : Finset (Fin n) :=
  Finset.univ \ survivors g

/-- Reachability by reverse input edges from a root-of-effect node. -/
def Survives {n : Nat} (g : ssa_graph n) (i : Fin n) : Prop :=
  ∃ r, root g r = true ∧ Relation.ReflTransGen (fun a b => b ∈ g.inputs a) r i

/-- The drain invariant: every marked node is either still on the worklist
or has all of its inputs marked. -/
def ClosedInv {n : Nat} (g : ssa_graph n) (m : Finset (Fin n))
    (wl : List (Fin n)) : Prop :=
  ∀ h ∈ m, h ∈ wl ∨ ∀ j ∈ g.inputs h, j ∈ m

end SSADce

namespace AsmReturns

/-- An `asm_inst_t` as far as `o_returns` observes it: opcode and argument,
compared with `operator==`. -/
structure asm_inst_t where
  op : Nat
  arg : Nat
  deriving DecidableEq, Repr

/-- An `asm_node_t` as far as `o_returns` observes it. -/
structure asm_node where
  code : List asm_inst_t
  output_inst : asm_inst_t
  outputs : List Nat
  cfg : Option Nat
  deriving DecidableEq, Repr

instance : Inhabited asm_node := ⟨⟨[], ⟨0, 0⟩, [], none⟩⟩

/-- The duplicated-suffix length scan (o_unused.cpp:479), on reversed code:
count matching leading entries. -/
def matchLenAux : List asm_inst_t → List asm_inst_t → Nat
  | a :: as, b :: bs => if a = b then matchLenAux as bs + 1 else 0
  | _, _ => 0

/-- `match_len`: the maximal common suffix length of two code vectors. -/
def match_len (a b : List asm_inst_t) : Nat := matchLenAux a.reverse b.reverse

/-- The tail-call rewrite of one return block (o_unused.cpp:451):
`rts` is the external opcode constant `RTS_IMPLIED` and `tco` the external
`tail_call_op` (0 meaning no tail-call form). -/
def tailCallNode (rts : Nat) (tco : Nat → Nat) (nd : asm_node) : asm_node :=
  if nd.output_inst.op ≠ rts ∨ nd.code = [] then nd
  else
    match nd.code.getLast? with
    | none => nd
    | some li =>
      if tco li.op ≠ 0 then { nd with output_inst := { li with op := tco li.op } }
      else nd

/-- One iteration of the pair loop of `o_returns` (o_unused.cpp:464).
`swf op` is the external `ASMF_SWITCH` test behind `asm_node_t::is_switch`,
and `jmp` the external opcode constant `JMP_ABSOLUTE`.  The guard
transcribes the source verbatim: the pair is skipped when `a` has outputs
or when `b` has no outputs. -/
def mergeStep (swf : Nat → Bool) (jmp : Nat) (st : List asm_node × Bool)
    (ai bi : Nat) : List asm_node × Bool :=
  let g := st.1
  let a := g.getD ai default
  let b := g.getD bi default
  if ¬a.outputs = [] ∨ b.outputs = [] then st
  else if ¬a.output_inst = b.output_inst then st
  else if swf a.output_inst.op ∨ swf b.output_inst.op then st
  else
    let len := match_len a.code b.code
    if len ≥ 2 then
      let newIdx := g.length
      let newNode : asm_node :=
        { code := a.code.drop (a.code.length - len)
          output_inst := a.output_inst
          outputs := []
          cfg := match a.cfg with | some c => some c | none => b.cfg }
      let a' : asm_node :=
        { code := a.code.take (a.code.length - len)
          output_inst := ⟨jmp, 0⟩
          outputs := a.outputs ++ [newIdx]
          cfg := a.cfg }
      let b' : asm_node :=
        { code := b.code.take (b.code.length - len)
          output_inst := ⟨jmp, 0⟩
          outputs := b.outputs ++ [newIdx]
          cfg := b.cfg }
      (((g.set ai a').set bi b') ++ [newNode], true)
    else st

/-- The ordered (i, j), i < j pairs visited by the double loop. -/
def pairList : List Nat → List (Nat × Nat)
  | [] => []
  | x :: xs => xs.map (fun y => (x, y)) ++ pairList xs

/-- `asm_graph_t::o_returns` (o_unused.cpp:441) over a graph given as the
node list in list order: collect the return blocks (empty output set),
tail-call-optimize them, then run the pair loop.  Returns the new node list
and the `changed` flag. -/
def o_returns (rts : Nat) (tco : Nat → Nat) (swf : Nat → Bool) (jmp : Nat)
    (g : List asm_node) : List asm_node × Bool :=
  let returns := (List.range g.length).filter
    (fun i => (g.getD i default).outputs = [])
  let g1 := returns.foldl
    (fun acc i => acc.set i (tailCallNode rts tco (acc.getD i default))) g
  (pairList returns).foldl (fun st p => mergeStep swf jmp st p.1 p.2) (g1, false)

/-- The concrete scenario of the spec (§8, scenario 5): two return blocks
`[LDA #1; STA $00; RTS]` and `[LDA #2; STA $00; RTS]` sharing the suffix
`STA $00; RTS` (ops: 1 = LDA, 2 = STA, 3 = RTS). -/
def exampleGraph : List asm_node :=
  [ { code := [⟨1, 1⟩, ⟨2, 0⟩, ⟨3, 0⟩], output_inst := ⟨0, 0⟩, outputs := [], cfg := none }
  , { code := [⟨1, 2⟩, ⟨2, 0⟩, ⟨3, 0⟩], output_inst := ⟨0, 0⟩, outputs := [], cfg := none } ]

end AsmReturns

namespace Liveness

/-- The assembly graph as `calc_liveness` observes it.  An instruction is
abstracted to the pair of locator-index sets for which `do_inst_rw`
reports a read resp. a write (the per-locator callbacks touch only bit `i`,
with the read handled before the write); everything `do_inst_rw` consults
(callee read/write summaries, register sets, locator classes) is external
to `src/o_unused.cpp`.  `argLocs` enumerates the `LOC_ARG` locators of the
map, in map order. -/
structure live_graph (k m : Nat) where
  code : Fin k → List (Finset (Fin m) × Finset (Fin m))
  outputs : Fin k → List (Fin k)
  inputs : Fin k → List (Fin k)
  entry : Fin k
  argLocs : List (Fin m)

/-- The liveness state: `in`/`out` bitsets per block, the `PROCESSED`
flags, and the worklist (a stack, head on top, with `IN_WORKLIST` dedup). -/
structure LState (k m : Nat) where
  lin : Fin k → Finset (Fin m)
  lout : Fin k → Finset (Fin m)
  processed : Finset (Fin k)
  wl : List (Fin k)

/-- `worklist.push` with the `FLAG_IN_WORKLIST` dedup. -/
def push {k : Nat} (x : Fin k) (wl : List (Fin k)) : List (Fin k) :=
  if x ∈ wl then wl else x :: wl

/-- One instruction of the GEN/KILL initialisation (o_unused.cpp:1091):
reads set `in`-bits still present in `out`, then writes clear `out`-bits.
The accumulator is the pair (in, out). -/
def instStep {m : Nat} (acc : Finset (Fin m) × Finset (Fin m))
    (p : Finset (Fin m) × Finset (Fin m)) : Finset (Fin m) × Finset (Fin m) :=
  (acc.1 ∪ p.1 ∩ acc.2, acc.2 \ p.2)

/-- The per-block GEN/KILL fold: starting from the block's current `in` set
and a full `out` set (`bitset_set_all`), run every instruction. -/
def genKill {m : Nat} (code : List (Finset (Fin m) × Finset (Fin m)))
    (lin0 : Finset (Fin m)) : Finset (Fin m) × Finset (Fin m) :=
  code.foldl instStep (lin0, Finset.univ)

/-- GEN: the locators read before being written. -/
def GEN {m : Nat} (code : List (Finset (Fin m) × Finset (Fin m))) :
    Finset (Fin m) := (genKill code ∅).1

/-- The complement of KILL: what the block does not definitely write. -/
def killComp {m : Nat} (code : List (Finset (Fin m) × Finset (Fin m))) :
    Finset (Fin m) := (genKill code ∅).2

/-- KILL: the locators definitely written in the block. -/
def KILL {m : Nat} (code : List (Finset (Fin m) × Finset (Fin m))) :
    Finset (Fin m) := Finset.univ \ killComp code

/-- The union of the successors' `in` sets (the true live-out). -/
def succUnion {k m : Nat} (g : live_graph k m) (lin : Fin k → Finset (Fin m))
    (h : Fin k) : Finset (Fin m) :=
  (g.outputs h).foldl (fun acc s => acc ∪ lin s) ∅

/-- Processing one popped block (o_unused.cpp:1117): recompute the live-in
from the successors, and push the predecessors when it changed or the block
was never processed. -/
def processNode {k m : Nat} (g : live_graph k m) (st : LState k m) (h : Fin k)
    (rest : List (Fin k)) : LState k m :=
  let temp := succUnion g st.lin h ∩ st.lout h ∪ st.lin h
  let st1 : LState k m :=
    if h ∉ st.processed ∨ ¬temp = st.lin h then
      { st with processed := insert h st.processed
                wl := (g.inputs h).foldl (fun wl p => push p wl) rest }
    else { st with wl := rest }
  { st1 with lin := Function.update st1.lin h temp }

/-- The worklist drain, with explicit fuel (`liveFuel` suffices). -/
def drainL {k m : Nat} (g : live_graph k m) : Nat → LState k m → LState k m
  | 0, st => st
  | fuel + 1, st =>
    match st.wl with
    | [] => st
    | h :: rest => drainL g fuel (processNode g st h rest)

/-- Fuel dominating the drain measure. -/
def liveFuel (k m : Nat) : Nat := (k * m + k + 1) * (k + 1) + k + 1

/-- The `reenter` outer loop (o_unused.cpp:1143): after the drain, push any
block never processed (backward-unreachable components) and drain again. -/
def reenter {k m : Nat} (g : live_graph k m) : Nat → LState k m → LState k m
  | fo, st =>
    let st1 := drainL g (liveFuel k m) st
    let unproc := (List.finRange k).filter (fun h => h ∉ st1.processed)
    if unproc.isEmpty then st1
    else
      match fo with
      | 0 => st1
      | fo' + 1 =>
        reenter g fo' { st1 with wl := unproc.foldl (fun wl p => push p wl) st1.wl }

/-- The initial state of `calc_liveness`: zeroed bitsets, the no-op
arg-read loop (the freshly allocated `out` sets are still empty, so
`do_read` never fires), the GEN/KILL initialisation, and the seed of the
worklist with every block without outputs. -/
def initState {k m : Nat} (g : live_graph k m) : LState k m :=
  let st0 : LState k m := ⟨fun _ => ∅, fun _ => ∅, ∅, []⟩
  let st1 := g.argLocs.foldl
    (fun st i =>
      if i ∈ st.lout g.entry then
        { st with lin := Function.update st.lin g.entry (insert i (st.lin g.entry)) }
      else st) st0
  let st2 : LState k m :=
    { st1 with lin := fun h => (genKill (g.code h) (st1.lin h)).1
               lout := fun h => (genKill (g.code h) (st1.lin h)).2 }
  { st2 with
    wl := (List.finRange k).foldl
      (fun wl h => if g.outputs h = [] then push h wl else wl) [] }

/-- `asm_graph_t::calc_liveness` (o_unused.cpp:1046): the resulting `in`
and `out` sets per block. -/
def calc_liveness {k m : Nat} (g : live_graph k m) :
    (Fin k → Finset (Fin m)) × (Fin k → Finset (Fin m)) :=
  let stF := reenter g k (initState g)
  (stF.lin, fun h => succUnion g stF.lin h)

/-- The graph invariant `calc_liveness` relies on (spec §3): every output
edge's target lists the node among its inputs. -/
def EdgeSym {k m : Nat} (g : live_graph k m) : Prop :=
  ∀ a b, b ∈ g.outputs a → a ∈ g.inputs b

/-- The dataflow invariant maintained by the drain: `in` contains GEN,
`out` constantly holds the complement of KILL, `in` never exceeds the
dataflow equation's right-hand side, and every processed block off the
worklist is stable. -/
def LInv {k m : Nat} (g : live_graph k m) (st : LState k m) : Prop :=
  (∀ h, GEN (g.code h) ⊆ st.lin h)
  ∧ (∀ h, st.lout h = killComp (g.code h))
  ∧ (∀ h, st.lin h ⊆ GEN (g.code h)
      ∪ (succUnion g st.lin h ∩ killComp (g.code h)))
  ∧ (∀ h, h ∈ st.processed → h ∉ st.wl →
      succUnion g st.lin h ∩ killComp (g.code h) ⊆ st.lin h)

/-- The decreasing potential of the drain: missing `in` bits plus
unprocessed blocks. -/
def potential {k m : Nat} (st : LState k m) : Nat :=
  (∑ h : Fin k, (m - (st.lin h).card)) + (k - st.processed.card)

/-- The drain measure: every pop strictly decreases it. -/
def measureL {k m : Nat} (st : LState k m) : Nat :=
  potential st * (k + 1) + st.wl.length

/-- A one-block, one-locator graph for concrete runs: the single block
reads locator 0 before writing nothing. -/
def exLive : live_graph 1 1 :=
  { code := fun _ => [(Finset.univ, ∅)]
    outputs := fun _ => []
    inputs := fun _ => []
    entry := 0
    argLocs := [] }

end Liveness

namespace AsmOrder

/-- An `asm_node_t` as far as `order()` observes it.  `labelCfgData` is
`some d` iff the node's label has `lclass() == LOC_CFG_LABEL` and
`data() = d` (the condition `build_incoming` tests); `codeBytes` is
`size_in_bytes(node.code)`; `outOp` is `output_inst.op`. -/
structure onode where
  outputs : List Nat
  inputs : List Nat
  cfg : Option Nat
  labelCfgData : Option Nat
  original_order : Nat
  codeBytes : Nat
  outOp : Nat
  deriving DecidableEq, Repr

instance : Inhabited onode := ⟨⟨[], [], none, none, 0, 0, 0⟩⟩

/-- The weighted-edge record of `order()` (field `from` of the source). -/
structure edge_t where
  from_ : Nat
  output : Nat
  weight : Nat
  deriving DecidableEq, Repr

/-- The external collaborators of `order()`: `edge_depth` from `ir_algo`,
`op_size`/`is_branch` from the opcode tables, and the implementation-defined
`std::uniform_int_distribution` and `std::shuffle` algorithms, each
threading the `std::minstd_rand` state. -/
structure oparams where
  edge_depth : Option Nat → Option Nat → Nat
  op_size : Nat → Nat
  is_branch : Nat → Bool
  distF : Nat → Nat → Nat × Nat
  shuffleF : Nat → List Nat → List Nat × Nat

/-- `build_incoming` (o_unused.cpp:709), with fuel for the recursion over
the (cyclic) input edges. -/
def build_incoming (g : List onode) :
    Nat → Option Nat → Nat → Finset (Option Nat) → Finset (Option Nat)
  | 0, _, _, acc => acc
  | fuel + 1, cfg, idx, acc =>
    let node := g.getD idx default
    if ¬node.cfg = cfg then insert node.cfg acc
    else
      match node.labelCfgData with
      | some d =>
        if d > 0 then
          node.inputs.foldl (fun acc i => build_incoming g fuel cfg i acc) acc
        else acc
      | none => acc

/-- The `scale` lambda of `order()` (o_unused.cpp:735). -/
def scale (P : oparams) (g : List onode) (node : onode) (nodeIdx : Nat)
    (other : onode) : Nat :=
  match node.cfg with
  | none => 1
  | some _ =>
    let other_cfg := match other.cfg with | none => node.cfg | s => s
    let incoming : Finset (Option Nat) :=
      if node.cfg = other_cfg then build_incoming g (g.length + 1) node.cfg nodeIdx ∅
      else ∅
    let depth :=
      if incoming = ∅ then P.edge_depth node.cfg other_cfg
      else incoming.sup (fun c => P.edge_depth c other_cfg)
    2 ^ min 16 (2 * depth)

/-- The per-node weighted edges pushed by the `switch` of `order()`
(o_unused.cpp:759): weight `3 * scale` for the single output, weights
`2 * scale` and `1 * scale` on the two-output split chosen by
`i = outputs[0].original_order > outputs[1].original_order`, and 0 for
switch-like fan-out. -/
def entriesFor (P : oparams) (g : List onode) (idx : Nat) (node : onode) :
    List edge_t :=
  match node.outputs with
  | [] => []
  | [o] => [⟨idx, 0, 3 * scale P g node idx (g.getD o default)⟩]
  | [o0, o1] =>
    let t0 := g.getD o0 default
    let t1 := g.getD o1 default
    if t0.original_order > t1.original_order then
      [⟨idx, 1, 2 * scale P g node idx t1⟩, ⟨idx, 0, 1 * scale P g node idx t0⟩]
    else
      [⟨idx, 0, 2 * scale P g node idx t0⟩, ⟨idx, 1, 1 * scale P g node idx t1⟩]
  | os => (List.range os.length).map (fun i => ⟨idx, i, 0⟩)

/-- The full elimination-order list before sorting. -/
def buildElim (P : oparams) (g : List onode) : List edge_t :=
  (List.range g.length).flatMap (fun idx => entriesFor P g idx (g.getD idx default))

/-- The elimination order after `std::sort` by descending weight. -/
def sortEdges (P : oparams) (g : List onode) : List edge_t :=
  (buildElim P g).mergeSort (fun l r => r.weight ≤ l.weight)

/-- The path-cover scratch state (`vcover`). -/
structure CoverState where
  path_output : Nat → Option Nat
  path_input : Nat → Option Nat
  list_end : Nat → Option Nat

/-- The tail walk `while(end->list_end) end = end->list_end`. -/
def walkEnd (st : CoverState) : Nat → Nat → Nat
  | 0, cur => cur
  | fuel + 1, cur =>
    match st.list_end cur with
    | none => cur
    | some nxt => walkEnd st fuel nxt

/-- One step of the greedy path cover (o_unused.cpp:791). -/
def coverStep (g : List onode) (st : CoverState) (e : edge_t) : CoverState :=
  let toIdx := (g.getD e.from_ default).outputs.getD e.output 0
  if (st.path_output e.from_).isSome then st
  else if (st.path_input toIdx).isSome then st
  else
    let endN := walkEnd st (g.length + 1) toIdx
    if endN = e.from_ then st
    else
      { path_output := Function.update st.path_output e.from_ (some e.output)
        path_input := Function.update st.path_input toIdx
          (some (List.indexOf e.from_ (g.getD toIdx default).inputs))
        list_end := Function.update st.list_end e.from_ (some endN) }

/-- Walking one path forward through `path_output`. -/
def walkPath (g : List onode) (st : CoverState) : Nat → Nat → List Nat
  | 0, cur => [cur]
  | fuel + 1, cur =>
    match st.path_output cur with
    | none => [cur]
    | some slot => cur :: walkPath g st fuel ((g.getD cur default).outputs.getD slot 0)

/-- Collecting the paths (o_unused.cpp:820): every node without a path
predecessor starts one. -/
def collectPaths (g : List onode) (st : CoverState) : List (List Nat) :=
  (List.range g.length).filterMap (fun i =>
    if (st.path_input i).isNone then some (walkPath g st (g.length + 1) i) else none)

/-- The terminator size contribution of the size-estimation switch
(o_unused.cpp:850): two outputs always pay one terminator and path tails
pay one more; one output pays only at the path tail; zero or switch-like
fan-out always pays one. -/
def termBytes (P : oparams) (node : onode) (isLast : Bool) : Nat :=
  match node.outputs.length with
  | 2 => P.op_size node.outOp + (if isLast then P.op_size node.outOp else 0)
  | 1 => if isLast then P.op_size node.outOp else 0
  | _ => P.op_size node.outOp

/-- A node's estimated byte size within its path. -/
def nodeSize (P : oparams) (g : List onode) (path : List Nat) (idx : Nat) : Nat :=
  let node := g.getD idx default
  node.codeBytes + termBytes P node (idx = path.getLastD 0)

/-- A path's total estimated byte size (`path.code_size`). -/
def pathSize (P : oparams) (g : List onode) (path : List Nat) : Nat :=
  (path.map (nodeSize P g path)).sum

/-- A node's byte offset within its path (`vorder.offset`). -/
def offsetIn (P : oparams) (g : List onode) (path : List Nat) (idx : Nat) : Nat :=
  ((path.takeWhile (fun j => ¬j = idx)).map (nodeSize P g path)).sum

/-- The index of the path containing a node. -/
def pathOf (paths : List (List Nat)) (idx : Nat) : Nat :=
  (paths.findIdx? (fun p => idx ∈ p)).getD 0

/-- The cross-path branch records of one path (o_unused.cpp:864). -/
def branchesOf (P : oparams) (g : List onode) (paths : List (List Nat))
    (pi : Nat) : List (Nat × Nat × Nat) :=
  (paths.getD pi []).flatMap (fun idx =>
    let node := g.getD idx default
    if P.is_branch node.outOp then
      node.outputs.filterMap (fun o =>
        let tp := pathOf paths o
        if ¬tp = pi then
          some (offsetIn P g (paths.getD pi []) idx,
                offsetIn P g (paths.getD tp []) o, tp)
        else none)
    else [])

/-- The absolute offset of a path under a given path ordering. -/
def pathOffset (P : oparams) (g : List onode) (paths : List (List Nat))
    (ord : List Nat) (pi : Nat) : Nat :=
  ((ord.takeWhile (fun q => ¬q = pi)).map
    (fun q => pathSize P g (paths.getD q []))).sum

/-- The layout cost function (o_unused.cpp:877): +1 for a page-crossing
branch, +3 for a branch outside the short range (127 − 4 bytes). -/
def cost_fn (P : oparams) (g : List onode) (paths : List (List Nat))
    (ord : List Nat) : Nat :=
  (ord.map (fun pi =>
    ((branchesOf P g paths pi).map (fun br =>
      let fromA : Nat := br.1 + pathOffset P g paths ord pi
      let toA : Nat := br.2.1 + pathOffset P g paths ord br.2.2
      (if ¬fromA % 256 = toA % 256 then 1 else 0) +
      (if ((fromA : Int) - toA).natAbs > 127 - 4 then 3 else 0))).sum)).sum

/-- The `check` lambda: keep the cheapest ordering seen. -/
def check (P : oparams) (g : List onode) (paths : List (List Nat))
    (best : Nat × List Nat) (ord : List Nat) : Nat × List Nat :=
  let c := cost_fn P g paths ord
  if c < best.1 then (c, ord) else best

/-- `std::next_permutation` on a list of path indices: `none` once the
last permutation has wrapped around. -/
def nextPermutation (l : List Nat) : Option (List Nat) :=
  let n := l.length
  match (List.range (n - 1)).reverse.find? (fun i => l.getD i 0 < l.getD (i + 1) 0) with
  | none => none
  | some i =>
    let j := ((List.range n).reverse.find?
      (fun j => i < j ∧ l.getD i 0 < l.getD j 0)).getD 0
    let sw := (l.set i (l.getD j 0)).set j (l.getD i 0)
    some (sw.take (i + 1) ++ (sw.drop (i + 1)).reverse)

/-- The exhaustive enumeration used when there are at most 4 paths
(o_unused.cpp:926): `do check(order); while(lowest_cost && next_permutation)`. -/
def permLoop (P : oparams) (g : List onode) (paths : List (List Nat)) :
    Nat → (Nat × List Nat) → List Nat → Nat × List Nat
  | 0, best, _ => best
  | fuel + 1, best, cur =>
    let best1 := check P g paths best cur
    if best1.1 = 0 then best1
    else
      match nextPermutation cur with
      | none => best1
      | some nxt => permLoop P g paths fuel best1 nxt

/-- `std::minstd_rand` advance: x ↦ 48271·x mod (2³¹ − 1). -/
def lcgNext (x : Nat) : Nat := 48271 * x % 2147483647

/-- `std::minstd_rand` seeding. -/
def lcgSeed (s : Nat) : Nat :=
  if s % 2147483647 = 0 then 1 else s % 2147483647

/-- Swapping two positions of the working order. -/
def swapAt (l : List Nat) (a b : Nat) : List Nat :=
  (l.set a (l.getD b 0)).set b (l.getD a 0)

/-- The `swaps` random pair-swaps of one annealing attempt. -/
def doSwaps (P : oparams) (pcount : Nat) :
    Nat → List Nat → Nat → List Nat × Nat
  | 0, ord, rng => (ord, rng)
  | i + 1, ord, rng =>
    let a := P.distF (pcount - 1) rng
    let b := P.distF (pcount - 1) a.2
    doSwaps P pcount i (swapAt ord a.1 b.1) b.2

/-- The four attempts of one annealing iteration, each restarting from the
best order; the Bool reports the early `goto done` on cost 0. -/
def attemptLoop (P : oparams) (g : List onode) (paths : List (List Nat))
    (pcount swaps : Nat) :
    Nat → (Nat × List Nat) → Nat → (Nat × List Nat) × Nat × Bool
  | 0, best, rng => (best, rng, false)
  | a + 1, best, rng =>
    let s := doSwaps P pcount swaps best.2 rng
    let best1 := check P g paths best s.1
    if best1.1 = 0 then (best1, s.2, true)
    else attemptLoop P g paths pcount swaps a best1 s.2

/-- The simulated-annealing descent `for swaps = n … 1` (o_unused.cpp:950). -/
def swapsLoop (P : oparams) (g : List onode) (paths : List (List Nat))
    (pcount : Nat) : Nat → (Nat × List Nat) → Nat → Nat × List Nat
  | 0, best, _ => best
  | swaps + 1, best, rng =>
    let r := attemptLoop P g paths pcount (swaps + 1) 4 best rng
    if r.2.2 then r.1
    else swapsLoop P g paths pcount swaps r.1 r.2.1

/-- The four initial random shuffles (o_unused.cpp:941), threading the
working order and RNG state. -/
def shuffles (P : oparams) (g : List onode) (paths : List (List Nat)) :
    Nat → (Nat × List Nat) → List Nat → Nat → (Nat × List Nat) × List Nat × Nat
  | 0, best, ord, rng => (best, ord, rng)
  | c + 1, best, ord, rng =>
    let s := P.shuffleF rng ord
    let best1 := check P g paths best s.1
    shuffles P g paths c best1 s.1 s.2

/-- `asm_graph_t::order` (o_unused.cpp:718) with the RNG seed exposed:
build and sort the weighted edges, run the greedy path cover, collect the
paths, then choose the cheapest path ordering — exhaustively for at most 4
paths, by shuffles plus annealing otherwise — and emit the nodes of the
chosen paths.  The source seeds the RNG with the fixed `0xDEADBEEF`. -/
def orderWithSeed (P : oparams) (seedV : Nat) (g : List onode) : List Nat :=
  let sorted := sortEdges P g
  let st0 : CoverState := ⟨fun _ => none, fun _ => none, fun _ => none⟩
  let st := sorted.foldl (coverStep g) st0
  let paths := collectPaths g st
  let p := paths.length
  let ord0 := List.range p
  let best0 : Nat × List Nat := (4294967295, [])
  let best :=
    if p ≤ 4 then permLoop P g paths (Nat.factorial p + 1) best0 ord0
    else
      let rng0 := lcgSeed seedV
      let best1 := check P g paths best0 ord0
      let s := shuffles P g paths 4 best1 ord0 rng0
      swapsLoop P g paths p p s.1 s.2.2
  best.2.flatMap (fun pi => paths.getD pi [])

/-- `order()` as the source runs it, with the constant seed. -/
def order (P : oparams) (g : List onode) : List Nat :=
  orderWithSeed P 0xDEADBEEF g

/-- Trivial instantiations of the external parameters, for concrete runs. -/
def trivialParams : oparams :=
  { edge_depth := fun _ _ => 0
    op_size := fun _ => 0
    is_branch := fun _ => false
    distF := fun _ s => (0, s)
    shuffleF := fun s l => (l, s) }

/-- The concrete counterexample graph for the two-output weighting: node 0
branches to node 1 (`original_order` 5) and node 2 (`original_order` 3);
no node belongs to a CFG, so every scale is 1. -/
def exGraph : List onode :=
  [ { outputs := [1, 2], inputs := [], cfg := none, labelCfgData := none
      original_order := 0, codeBytes := 0, outOp := 0 }
  , { outputs := [], inputs := [0], cfg := none, labelCfgData := none
      original_order := 5, codeBytes := 0, outOp := 0 }
  , { outputs := [], inputs := [0], cfg := none, labelCfgData := none
      original_order := 3, codeBytes := 0, outOp := 0 } ]

end AsmOrder

namespace ToLinear

/-- Locator-class codes (`lclass`); the numeric values are immaterial, only
distinctness matters. -/
def LOC_NONE : Nat := 0
def LOC_MINOR_LABEL : Nat := 1
def LOC_CFG_LABEL : Nat := 2
def LOC_SWITCH_LO_TABLE : Nat := 3
def LOC_SWITCH_HI_TABLE : Nat := 4
def LOC_CONST_BYTE : Nat := 5

/-- `is` annotation codes: whole value, low pointer byte, high pointer byte. -/
def IS_DEFAULT : Nat := 0
def IS_PTR : Nat := 1
def IS_PTR_HI : Nat := 2

/-- A `locator_t` as far as `to_linear` observes it: class, payload
(label id / cfg handle / byte), offset, and the `is` byte-selector. -/
structure locator where
  lclass : Nat
  data : Nat
  offset : Int
  isMode : Nat
  deriving DecidableEq, Repr

/-- The null locator (`LOC_NONE`, the zero-initialised `.alt`). -/
def locNone : locator := ⟨LOC_NONE, 0, 0, 0⟩

def minor_label (vid : Nat) : locator := ⟨LOC_MINOR_LABEL, vid, 0, 0⟩

def switch_lo_table (cfg : Nat) : locator := ⟨LOC_SWITCH_LO_TABLE, cfg, 0, 0⟩

def switch_hi_table (cfg : Nat) : locator := ⟨LOC_SWITCH_HI_TABLE, cfg, 0, 0⟩

def const_byte (b : Nat) : locator := ⟨LOC_CONST_BYTE, b, 0, 0⟩

def locator.with_advance_offset (l : locator) (d : Int) : locator :=
  { l with offset := l.offset + d }

def locator.with_is (l : locator) (m : Nat) : locator := { l with isMode := m }

/-- Opcode constants for the pseudo-ops `to_linear` emits itself. -/
def ASM_LABEL : Nat := 1000
def ASM_DATA : Nat := 1001

structure asm_inst_t where
  op : Nat
  arg : locator
  alt : locator
  deriving DecidableEq, Repr

/-- An `asm_node_t` as far as `to_linear` observes it; outputs carry their
switch `case_value` (−1 on non-switch edges). -/
structure lnode where
  label : Option locator
  inputs : List Nat
  outputs : List (Nat × Int)
  code : List asm_inst_t
  output_inst : asm_inst_t
  deriving DecidableEq, Repr

instance : Inhabited lnode := ⟨⟨none, [], [], [], ⟨0, locNone, locNone⟩⟩⟩

/-- External opcode classifiers (`ASMF_SWITCH` behind `is_switch`,
`is_branch`, `invert_branch`). -/
structure lparams where
  is_switch_op : Nat → Bool
  is_branch_op : Nat → Bool
  invert_branch : Nat → Nat

/-- The `get_label` lambda (o_unused.cpp:584): a node's own non-minor label
when present, else a minor label made from the node's sequential id (its
position in the chosen order). -/
def get_label (ord : List Nat) (idx : Nat) (node : lnode) : locator :=
  match node.label with
  | some l =>
    if ¬l.lclass = LOC_MINOR_LABEL then l else minor_label (List.indexOf idx ord)
  | none => minor_label (List.indexOf idx ord)

/-- `int min = 0xFF` folded with the edges' case values. -/
def minCase (node : lnode) : Int :=
  node.outputs.foldl (fun mn e => min mn e.2) 255

/-- `int max = 0` folded with the edges' case values. -/
def maxCase (node : lnode) : Int :=
  node.outputs.foldl (fun mx e => max mx e.2) 0

/-- `bc::static_vector::resize(size, const_byte(0))`: truncate or pad; the
vector is reused across switches, so shrinking keeps old entries. -/
def resizeFill (l : List locator) (sz : Nat) (v : locator) : List locator :=
  if sz ≤ l.length then l.take sz else l ++ List.replicate (sz - l.length) v

/-- The table-filling loop: entry `case_value − min` becomes the target's
label advanced by −1 (the 6502 jump-via-RTS trick). -/
def fillTable (ord : List Nat) (g : List lnode) (mn : Int) (tbl : List locator)
    (node : lnode) : List locator :=
  node.outputs.foldl (fun t e =>
    t.set (e.2 - mn).toNat
      ((get_label ord e.1 (g.getD e.1 default)).with_advance_offset (-1))) tbl

/-- One node of the switch-table preparation loop (o_unused.cpp:594):
threads the graph (the terminator's `arg`/`alt` offsets are pre-advanced
by −min), the reused table vector, and the list of emitted table blocks. -/
def prepNode (Q : lparams) (ord : List Nat)
    (st : List lnode × List locator × List (List asm_inst_t)) (idx : Nat) :
    List lnode × List locator × List (List asm_inst_t) :=
  let g := st.1
  let node := g.getD idx default
  if ¬Q.is_switch_op node.output_inst.op then st
  else
    let mn := minCase node
    let mx := maxCase node
    let size := (mx - mn + 1).toNat
    let node' := { node with
      output_inst := { node.output_inst with
        arg := node.output_inst.arg.with_advance_offset (-mn)
        alt := node.output_inst.alt.with_advance_offset (-mn) } }
    let g' := g.set idx node'
    let tbl1 := resizeFill st.2.1 size (const_byte 0)
    let tbl2 := fillTable ord g' mn tbl1 node'
    let cfg := node'.output_inst.arg.data
    let block :=
      ⟨ASM_LABEL, switch_lo_table cfg, locNone⟩
        :: tbl2.map (fun loc => ⟨ASM_DATA, loc.with_is IS_PTR, locNone⟩)
      ++ ⟨ASM_LABEL, switch_hi_table cfg, locNone⟩
        :: tbl2.map (fun loc => ⟨ASM_DATA, loc.with_is IS_PTR_HI, locNone⟩)
    (g', tbl2, st.2.2 ++ [block])

/-- The whole switch-table preparation pass over the chosen order. -/
def prepTables (Q : lparams) (ord : List Nat) (g : List lnode) :
    List lnode × List locator × List (List asm_inst_t) :=
  ord.foldl (prepNode Q ord) (g, [], [])

/-- The main emission of one ordered node (o_unused.cpp:637): optional
label, the node's code, then the terminator — verbatim for switches and
returns, else one jump/branch per output that is not the next node,
inverting the branch for the second output. -/
def emitAt (Q : lparams) (entry_label : locator) (g : List lnode)
    (ord : List Nat) (i : Nat) : List asm_inst_t :=
  let idx := ord.getD i 0
  let node := g.getD idx default
  let prevI : Option Nat := if i = 0 then none else some (ord.getD (i - 1) 0)
  let nextI : Option Nat :=
    if i + 1 < ord.length then some (ord.getD (i + 1) 0) else none
  let needLabel :=
    node.inputs.length > 1
    ∨ (node.inputs.length = 1 ∧ ¬prevI = some (node.inputs.getD 0 0))
    ∨ node.label = some entry_label
    ∨ node.inputs.any (fun inp => Q.is_switch_op ((g.getD inp default).output_inst.op))
  let lbl : List asm_inst_t :=
    if needLabel then [⟨ASM_LABEL, get_label ord idx node, locNone⟩] else []
  let term : List asm_inst_t :=
    if ¬node.output_inst.op = 0 then
      if Q.is_switch_op node.output_inst.op ∨ node.outputs = [] then
        [node.output_inst]
      else
        (List.range node.outputs.length).filterMap (fun j =>
          let tgt := (node.outputs.getD j (0, 0)).1
          if some tgt = nextI then none
          else
            let op0 := node.output_inst.op
            let op1 := if 0 < j ∧ Q.is_branch_op op0 then Q.invert_branch op0 else op0
            some ⟨op1, get_label ord tgt (g.getD tgt default), locNone⟩)
    else []
  lbl ++ node.code ++ term

/-- `asm_graph_t::to_linear` (o_unused.cpp:565): prepare the switch tables,
emit every ordered node, and append the table blocks after all main code. -/
def to_linear (Q : lparams) (entry_label : locator) (g : List lnode)
    (ord : List Nat) : List asm_inst_t :=
  let pr := prepTables Q ord g
  (List.range ord.length).flatMap (emitAt Q entry_label pr.1 ord)
    ++ pr.2.2.flatten

/-- All main code of `to_linear` (everything before the switch tables). -/
def mainCode (Q : lparams) (entry_label : locator) (g : List lnode)
    (ord : List Nat) : List asm_inst_t :=
  (List.range ord.length).flatMap (emitAt Q entry_label (prepTables Q ord g).1 ord)

/-- The emitted switch-table blocks, in order. -/
def tableBlocks (Q : lparams) (ord : List Nat) (g : List lnode) :
    List (List asm_inst_t) :=
  (prepTables Q ord g).2.2

/-- Concrete opcode classifiers for runs: opcode 7 is the switch. -/
def Qw : lparams := ⟨fun op => op == 7, fun _ => false, id⟩

/-- A concrete one-edge switch node (case value 3, target node 0, CFG 9). -/
def nodeW : lnode :=
  { label := none
    inputs := []
    outputs := [(0, 3)]
    code := []
    output_inst := ⟨7, ⟨LOC_CFG_LABEL, 9, 5, 0⟩, locNone⟩ }

end ToLinear

namespace NesType

/-- Prefix-wise equal type tails produce equal hash folds. -/
theorem typeEqFirst_hashFirst (hc : Nat → Nat → Nat) (as : List type_t)
    (IH : ∀ a ∈ as, ∀ b, typeEq a b = true → typeHash hc a = typeHash hc b) :
    ∀ (k h : Nat) (bs : List type_t), typeEqFirst k as bs = true →
      typeHashFirst hc h k as = typeHashFirst hc h k bs := by
  induction as with
  | nil =>
    intro k h bs heq
    cases k with
    | zero => simp [typeHashFirst]
    | succ k =>
      cases bs with
      | nil => rfl
      | cons b bs => simp [typeEqFirst] at heq
  | cons a as ih =>
    intro k h bs heq
    cases k with
    | zero => simp [typeHashFirst]
    | succ k =>
      cases bs with
      | nil => simp [typeEqFirst] at heq
      | cons b bs =>
        rw [typeEqFirst] at heq
        rw [Bool.and_eq_true] at heq
        rw [typeHashFirst, typeHashFirst, IH a (by simp) b heq.1]
        exact ih (fun a' ha' => IH a' (by simp [ha'])) k _ bs heq.2

/-- C10: type equality is hash-consistent — `a == b` implies
`a.hash() == b.hash()` for any hash combiner, because both functions read
only the name, the size and the tail elements selected by the name. -/
theorem c10_type_eq_hash (hc : Nat → Nat → Nat) :
    ∀ (a b : type_t), typeEq a b = true → typeHash hc a = typeHash hc b
  | .mk n1 s1 tt1 gt1 p1 e1 si1, .mk n2 s2 tt2 gt2 p2 e2 si2, heq => by
    rw [typeEq] at heq
    split at heq
    case isFalse => exact absurd heq (by simp)
    case isTrue hcond =>
      obtain ⟨hn, hs⟩ := hcond
      subst hn
      subst hs
      rw [typeHash, typeHash]
      by_cases htt : has_type_tail n1 = true
      · rw [if_pos htt] at heq
        simp only [htt, if_true]
        exact typeEqFirst_hashFirst hc tt1
          (fun a' ha' b' h' => c10_type_eq_hash hc a' b' h') _ _ tt2 heq
      · rw [if_neg htt] at heq
        simp only [htt, Bool.false_eq_true, if_false]
        by_cases hgt : has_group_tail n1 = true
        · rw [if_pos hgt] at heq
          simp only [hgt, if_true]
          rw [decide_eq_true_iff] at heq
          rw [heq]
        · simp only [hgt, Bool.false_eq_true, if_false]
  termination_by a _ _ => sizeOf a
  decreasing_by
    simp_wf
    have := List.sizeOf_lt_of_mem ha'
    omega

/-- Witness for C10 at a concrete pair of equal types that differ in the
fields `operator==` ignores. -/
theorem c10_witness :
    typeEq (type_t.mk .int 3 [] [] 7 8 9) (type_t.mk .int 3 [] [] 0 0 0) = true
    ∧ typeHash (fun x y => 2 * x + y) (type_t.mk .int 3 [] [] 7 8 9)
      = typeHash (fun x y => 2 * x + y) (type_t.mk .int 3 [] [] 0 0 0) :=
  ⟨by simp [typeEq, has_type_tail, has_group_tail],
   c10_type_eq_hash _ _ _ (by simp [typeEq, has_type_tail, has_group_tail])⟩

/-- C9: `can_cast` fails in both directions of `implicit` whenever the two
types differ and either is a pointer type: after the `from == to` test the
pointer test rejects unconditionally (type.cpp:312). -/
theorem c9_ptr_no_cast (ia : TypeName → Bool) (fb : TypeName → Nat)
    (ias : TypeName → TypeName → Bool) (fromT toT : type_t) (implicit : Bool)
    (hne : typeEq fromT toT = false)
    (hp : is_ptr fromT.name = true ∨ is_ptr toT.name = true) :
    can_cast ia fb ias fromT toT implicit = .fail := by
  unfold can_cast
  rw [hne]
  rcases hp with h | h <;> simp [h]

/-- Witness for C9: `PP` (a `TYPE_PTR`) against `U`, both implicitly and
explicitly. -/
theorem c9_witness :
    can_cast (fun _ => true) (fun _ => 0) (fun _ _ => true)
      (type_t.mk .ptrT 1 [] [5] 0 0 0) (type_t.mk .u10 1 [] [] 0 0 0) true = .fail
    ∧ can_cast (fun _ => true) (fun _ => 0) (fun _ _ => true)
      (type_t.mk .ptrT 1 [] [5] 0 0 0) (type_t.mk .u10 1 [] [] 0 0 0) false = .fail :=
  ⟨c9_ptr_no_cast _ _ _ _ _ _ (by simp [typeEq]) (Or.inl rfl),
   c9_ptr_no_cast _ _ _ _ _ _ (by simp [typeEq]) (Or.inl rfl)⟩

/-- C8: on an array thunk, `dethunkify` raises a `compiler_error` carrying
the thunk's own source position exactly when the evaluated size is out of
range (≤ 0 or > 256) or the element type contains an array; otherwise it
returns the concrete array type of that element type and size
(type.cpp:467). -/
theorem c8_array_thunk_dethunkify (interp : Nat → Nat) (gS : Nat → Bool)
    (sO : Nat → Nat) (sA : Nat → Bool) (elem : type_t) (ps expr srcPs : Nat) :
    ((∃ msg, dethunkify interp gS sO sA (type_t.array_thunk ps elem expr) srcPs
        = .error (.compilerError ps msg))
      ↔ (interp expr ≤ 0 ∨ interp expr > 256 ∨ has_array sA elem = true))
    ∧ (¬(interp expr ≤ 0 ∨ interp expr > 256 ∨ has_array sA elem = true) →
        dethunkify interp gS sO sA (type_t.array_thunk ps elem expr) srcPs
          = .ok (type_t.array elem (interp expr))) := by
  have harr : type_t.elem_type (type_t.array_thunk ps elem expr) = elem := rfl
  rw [type_t.array_thunk] at harr ⊢
  rw [dethunkify, harr]
  by_cases ha : has_array sA elem = true
  · simp [ha]
  · by_cases hsz : interp expr ≤ 0 ∨ interp expr > 256
    · simp only [ha, Bool.false_eq_true, if_false, hsz, if_true]
      constructor
      · constructor
        · intro _
          tauto
        · intro _
          exact ⟨msgInvalidSize, rfl⟩
      · intro hcon
        exact absurd (by tauto) hcon
    · have hsz' : ¬(interp expr = 0 ∨ 256 < interp expr) := by omega
      simp [ha, hsz, hsz']

/-- Witness for C8: a one-byte element type and size expression 4 produce
`Bool[4]`. -/
theorem c8_witness :
    dethunkify (fun _ => 4) (fun _ => false) (fun _ => 0) (fun _ => false)
      (type_t.array_thunk 11 (type_t.mk .bool 0 [] [] 0 0 0) 0) 0
      = .ok (type_t.array (type_t.mk .bool 0 [] [] 0 0 0) 4) :=
  (c8_array_thunk_dethunkify (fun _ => 4) (fun _ => false) (fun _ => 0)
    (fun _ => false) (type_t.mk .bool 0 [] [] 0 0 0) 11 0 0).2
    (by simp [has_array])

end NesType

namespace AsmFinish

/-- `replace_output` only rewrites the indicated output slot; the input
bookkeeping never touches the output vectors. -/
theorem replace_output_outputs (g : graph_t) (nd slot : Nat) (w : Option Nat) :
    (replace_output g nd slot w).outputs
      = Function.update g.outputs nd ((g.outputs nd).set slot w) := by
  unfold replace_output
  cases (g.outputs nd).getD slot none <;> cases w <;> rfl

/-- An error escapes `finish_appending` iff some deferred label is absent
from the label map. -/
theorem fa_error_iff (lm : Nat → Option Nat) :
    ∀ (lks : List lookup_t) (g : graph_t),
      (∃ e, finish_appending lm lks g = .error e)
        ↔ ∃ lk ∈ lks, lm lk.label = none := by
  intro lks
  induction lks with
  | nil => intro g; simp [finish_appending]
  | cons lk rest ih =>
    intro g
    rw [finish_appending]
    cases h : lm lk.label with
    | some t => simp [h, ih]
    | none => simp [h]

/-- The thrown error names a deferred label that is absent from the map. -/
theorem fa_error_label (lm : Nat → Option Nat) :
    ∀ (lks : List lookup_t) (g : graph_t) (l : Nat),
      finish_appending lm lks g = .error (.missingLabel l) →
      ∃ lk ∈ lks, lk.label = l ∧ lm l = none := by
  intro lks
  induction lks with
  | nil => intro g l h; simp [finish_appending] at h
  | cons lk rest ih =>
    intro g l h
    rw [finish_appending] at h
    cases hm : lm lk.label with
    | some t =>
      rw [hm] at h
      obtain ⟨lk', hmem, hl⟩ := ih _ l h
      exact ⟨lk', by simp [hmem], hl⟩
    | none =>
      rw [hm] at h
      obtain ⟨rfl⟩ : lk.label = l := by
        cases h
        rfl
      exact ⟨lk, by simp, rfl, hm⟩

/-- Slots untouched by any pending lookup keep their contents. -/
theorem fa_preserve (lm : Nat → Option Nat) :
    ∀ (lks : List lookup_t) (g g' : graph_t) (nd slot : Nat),
      finish_appending lm lks g = .ok g' →
      (∀ lk ∈ lks, ¬(lk.node = nd ∧ lk.output = slot)) →
      (g'.outputs nd).getD slot none = (g.outputs nd).getD slot none := by
  intro lks
  induction lks with
  | nil =>
    intro g g' nd slot h _
    cases h
    rfl
  | cons lk rest ih =>
    intro g g' nd slot h hd
    rw [finish_appending] at h
    cases hm : lm lk.label with
    | some t =>
      rw [hm] at h
      rw [ih _ _ nd slot h (fun x hx => hd x (by simp [hx]))]
      rw [replace_output_outputs]
      by_cases hnd : lk.node = nd
      · have hslot : ¬lk.output = slot := fun hs => hd lk (by simp) ⟨hnd, hs⟩
        rw [hnd, Function.update_same]
        rw [List.getD_eq_getElem?_getD, List.getD_eq_getElem?_getD,
          List.getElem?_set_ne hslot]
      · rw [Function.update_noteq (fun hh => hnd hh.symm)]
    | none => rw [hm] at h; cases h

/-- `replace_output` preserves every output vector's length. -/
theorem replace_output_length (g : graph_t) (nd slot : Nat) (w : Option Nat)
    (n : Nat) :
    ((replace_output g nd slot w).outputs n).length = (g.outputs n).length := by
  rw [replace_output_outputs]
  by_cases h : n = nd
  · subst h
    rw [Function.update_same, List.length_set]
  · rw [Function.update_noteq h]

/-- On success every deferred lookup's slot holds the mapped node, given
pairwise-distinct slots within bounds. -/
theorem fa_resolves (lm : Nat → Option Nat) :
    ∀ (lks : List lookup_t) (g g' : graph_t),
      finish_appending lm lks g = .ok g' →
      List.Pairwise (fun x y : lookup_t => ¬(x.node = y.node ∧ x.output = y.output)) lks →
      ∀ lk ∈ lks, lk.output < (g.outputs lk.node).length →
      ∃ t, lm lk.label = some t
        ∧ (g'.outputs lk.node).getD lk.output none = some t := by
  intro lks
  induction lks with
  | nil => intro g g' _ _ lk hmem; simp at hmem
  | cons hd rest ih =>
    intro g g' h hpw lk hmem hbound
    rw [finish_appending] at h
    cases hm : lm hd.label with
    | some t =>
      rw [hm] at h
      rw [List.pairwise_cons] at hpw
      rcases List.mem_cons.mp hmem with hmem | hmem
      · subst hmem
        refine ⟨t, hm, ?_⟩
        rw [fa_preserve lm rest _ _ lk.node lk.output h
          (fun x hx hcon => hpw.1 x hx ⟨hcon.1.symm, hcon.2.symm⟩)]
        rw [replace_output_outputs, Function.update_same,
          List.getD_eq_getElem?_getD, List.getElem?_set_self hbound]
        rfl
      · refine ih _ _ h hpw.2 lk hmem ?_
        rw [replace_output_length]
        exact hbound
    | none => rw [hm] at h; cases h

/-- C7: `finish_appending` resolves every deferred lookup through
`label_map`, writing the mapped node into the reserved (previously null)
output slot, and throws the fatal error naming a label exactly when some
deferred label is absent from the map (o_unused.cpp:323). -/
theorem c7_finish_appending (lm : Nat → Option Nat) (lks : List lookup_t)
    (g : graph_t) :
    ((∃ e, finish_appending lm lks g = .error e)
      ↔ ∃ lk ∈ lks, lm lk.label = none)
    ∧ (∀ l, finish_appending lm lks g = .error (.missingLabel l) →
        ∃ lk ∈ lks, lk.label = l ∧ lm l = none)
    ∧ (∀ g', finish_appending lm lks g = .ok g' →
        List.Pairwise (fun x y : lookup_t => ¬(x.node = y.node ∧ x.output = y.output)) lks →
        ∀ lk ∈ lks, lk.output < (g.outputs lk.node).length →
        ∃ t, lm lk.label = some t
          ∧ (g'.outputs lk.node).getD lk.output none = some t) :=
  ⟨fa_error_iff lm lks g,
   fun l => fa_error_label lm lks g l,
   fun g' h hpw lk hmem hb => fa_resolves lm lks g g' h hpw lk hmem hb⟩

/-- Witness for C7: a single lookup of label 5 mapped to node 2 lands in
the reserved slot. -/
theorem c7_witness :
    (((finish_appending (fun l => if l = 5 then some 2 else none)
        [⟨0, 0, 5⟩] ⟨fun n => if n = 0 then [none] else [], fun _ => []⟩).toOption.getD
          ⟨fun _ => [], fun _ => []⟩).outputs 0).getD 0 none = some 2 := by
  obtain ⟨t, ht, hval⟩ :=
    (c7_finish_appending (fun l => if l = 5 then some 2 else none)
        [⟨0, 0, 5⟩] ⟨fun n => if n = 0 then [none] else [], fun _ => []⟩).2.2
      (replace_output ⟨fun n => if n = 0 then [none] else [], fun _ => []⟩ 0 0 (some 2))
      rfl (by simp) ⟨0, 0, 5⟩ (by simp) (by simp)
  simp only [if_true, Option.some.injEq, eq_self_iff_true, if_pos] at ht
  rw [← ht] at hval
  exact hval

end AsmFinish

namespace AsmReturns

/-- The tail-call rewrite never touches a node's outputs. -/
theorem tailCallNode_outputs (rts : Nat) (tco : Nat → Nat) (nd : asm_node) :
    (tailCallNode rts tco nd).outputs = nd.outputs := by
  unfold tailCallNode
  split
  · rfl
  · split
    · rfl
    · split <;> rfl

/-- The tail-call pass over the collected returns preserves every node's
outputs. -/
theorem foldl_tailCall_outputs (rts : Nat) (tco : Nat → Nat) :
    ∀ (ret : List Nat) (g : List asm_node) (i : Nat),
      ((ret.foldl (fun acc j => acc.set j (tailCallNode rts tco (acc.getD j default))) g).getD
          i default).outputs
        = (g.getD i default).outputs := by
  intro ret
  induction ret with
  | nil => intro g i; rfl
  | cons j rest ih =>
    intro g i
    rw [List.foldl_cons, ih]
    simp only [List.getD_eq_getElem?_getD, List.getElem?_set]
    by_cases hij : j = i
    · subst hij
      by_cases hlen : j < g.length
      · simp [hlen, tailCallNode_outputs, List.getD_eq_getElem?_getD]
      · simp [hlen, List.getElem?_eq_none (by omega : g.length ≤ j)]
    · simp only [if_neg hij]

/-- The second component of every visited pair is a collected return. -/
theorem pairList_mem_right :
    ∀ (l : List Nat) (p : Nat × Nat), p ∈ pairList l → p.2 ∈ l := by
  intro l
  induction l with
  | nil => intro p hp; simp [pairList] at hp
  | cons x xs ih =>
    intro p hp
    rw [pairList] at hp
    rcases List.mem_append.mp hp with h | h
    · obtain ⟨y, hy, rfl⟩ := List.mem_map.mp h
      simp [hy]
    · simp [ih p h]

/-- The pair loop skips any pair whose second block has no outputs — which
is every pair, since the source's guard reads `b.outputs().empty()` where
only `!b.outputs().empty()` would let a merge proceed. -/
theorem mergeStep_skip (swf : Nat → Bool) (jmp : Nat)
    (st : List asm_node × Bool) (ai bi : Nat)
    (hb : (st.1.getD bi default).outputs = []) :
    mergeStep swf jmp st ai bi = st := by
  simp only [mergeStep]
  exact if_pos (Or.inr hb)

/-- The whole pair loop is the identity whenever every pair's second block
has empty outputs. -/
theorem foldl_mergeStep_id (swf : Nat → Bool) (jmp : Nat) :
    ∀ (l : List (Nat × Nat)) (st : List asm_node × Bool),
      (∀ p ∈ l, (st.1.getD p.2 default).outputs = []) →
      l.foldl (fun st p => mergeStep swf jmp st p.1 p.2) st = st := by
  intro l
  induction l with
  | nil => intro st _; rfl
  | cons p rest ih =>
    intro st hall
    rw [List.foldl_cons, mergeStep_skip _ _ _ _ _ (hall p (by simp))]
    exact ih st (fun q hq => hall q (by simp [hq]))

/-- `o_returns` as written never merges: the guard at o_unused.cpp:469
(`!a.outputs().empty() || b.outputs().empty()`) fires for every pair of
collected returns, so the function only performs the tail-call rewrite and
always reports `changed = false`. -/
theorem o_returns_never_merges (rts : Nat) (tco : Nat → Nat)
    (swf : Nat → Bool) (jmp : Nat) (g : List asm_node) :
    (o_returns rts tco swf jmp g).2 = false
    ∧ (o_returns rts tco swf jmp g).1.length = g.length := by
  unfold o_returns
  rw [foldl_mergeStep_id]
  · refine ⟨rfl, ?_⟩
    generalize (List.range g.length).filter
      (fun i => (g.getD i default).outputs = []) = ret
    induction ret generalizing g with
    | nil => rfl
    | cons j rest ih =>
      rw [List.foldl_cons]
      rw [ih]
      exact List.length_set g j _
  · intro p hp
    have h2 := pairList_mem_right _ _ hp
    rw [foldl_tailCall_outputs]
    have := (List.mem_filter.mp h2).2
    exact of_decide_eq_true this

/-- C1, failing input: on the spec's own tail-merge scenario (§8.5) the
code changes nothing — no new block is allocated, the two return blocks
keep their full code, and `changed` is false, where the claim requires a
merged suffix block. -/
theorem c1_example_no_merge :
    o_returns 3 (fun _ => 0) (fun _ => false) 42 exampleGraph
      = (exampleGraph, false) := by decide

end AsmReturns

namespace AsmOrder

/-- C4 (amended): for a two-output node the code assigns weight
`2 * scale` to the edge chosen by `i = outputs[0].original_order >
outputs[1].original_order` — that is, to the output whose target's
`original_order` is NOT the greater one (the first output on ties) — and
`1 * scale` to the other; the elimination order is then sorted by
descending weight. -/
theorem c4_two_output_weights (P : oparams) (g : List onode) (idx : Nat)
    (node : onode) (o0 o1 : Nat) (hout : node.outputs = [o0, o1]) :
    (entriesFor P g idx node =
      if (g.getD o0 default).original_order > (g.getD o1 default).original_order then
        [⟨idx, 1, 2 * scale P g node idx (g.getD o1 default)⟩,
         ⟨idx, 0, 1 * scale P g node idx (g.getD o0 default)⟩]
      else
        [⟨idx, 0, 2 * scale P g node idx (g.getD o0 default)⟩,
         ⟨idx, 1, 1 * scale P g node idx (g.getD o1 default)⟩])
    ∧ List.Pairwise (fun a b : edge_t => b.weight ≤ a.weight) (sortEdges P g) := by
  constructor
  · obtain ⟨outs, ins, cfg, lcd, oo, cb, op⟩ := node
    dsimp only at hout
    subst hout
    rfl
  · have h := @List.sorted_mergeSort edge_t (fun l r => decide (r.weight ≤ l.weight))
      (fun a b c hab hbc => by
        rw [decide_eq_true_iff] at hab hbc ⊢
        omega)
      (fun a b => by
        rcases Nat.le_total b.weight a.weight with h | h <;> simp [h])
      (buildElim P g)
    refine h.imp ?_
    intro a b hab
    rw [decide_eq_true_iff] at hab
    exact hab

/-- Witness for the amended C4 at the concrete three-node graph. -/
theorem c4_witness :
    (entriesFor trivialParams exGraph 0 (exGraph.getD 0 default) =
      if (exGraph.getD 1 default).original_order > (exGraph.getD 2 default).original_order then
        [⟨0, 1, 2 * scale trivialParams exGraph (exGraph.getD 0 default) 0 (exGraph.getD 2 default)⟩,
         ⟨0, 0, 1 * scale trivialParams exGraph (exGraph.getD 0 default) 0 (exGraph.getD 1 default)⟩]
      else
        [⟨0, 0, 2 * scale trivialParams exGraph (exGraph.getD 0 default) 0 (exGraph.getD 1 default)⟩,
         ⟨0, 1, 1 * scale trivialParams exGraph (exGraph.getD 0 default) 0 (exGraph.getD 2 default)⟩])
    ∧ List.Pairwise (fun a b : edge_t => b.weight ≤ a.weight)
        (sortEdges trivialParams exGraph) :=
  c4_two_output_weights trivialParams exGraph 0 (exGraph.getD 0 default) 1 2 rfl

/-- C4, counterexample to the claim as stated: in `exGraph` the node-0
edge whose target has the GREATER `original_order` (slot 0, target 1 with
order 5 > 3, scale 1) receives weight 1, not `2 * scale`. -/
theorem c4_counterexample :
    ¬ (∀ e ∈ buildElim trivialParams exGraph,
        e.from_ = 0 → e.output = 0 →
        e.weight = 2 * scale trivialParams exGraph (exGraph.getD 0 default) 0
          (exGraph.getD 1 default)) := by decide

/-- C6: `order()` is deterministic — its result depends only on the graph
and the external parameters, and the RNG seed both runs use is the fixed
constant `0xDEADBEEF`, so two runs on identical inputs agree. -/
theorem c6_order_deterministic (P : oparams) (g : List onode) (s1 s2 : Nat)
    (h1 : s1 = 0xDEADBEEF) (h2 : s2 = 0xDEADBEEF) :
    orderWithSeed P s1 g = orderWithSeed P s2 g
    ∧ order P g = orderWithSeed P s1 g := by
  subst h1
  subst h2
  exact ⟨rfl, rfl⟩

/-- Witness for C6 at the concrete graph and parameters. -/
theorem c6_witness :
    orderWithSeed trivialParams 0xDEADBEEF exGraph
      = orderWithSeed trivialParams 0xDEADBEEF exGraph
    ∧ order trivialParams exGraph = orderWithSeed trivialParams 0xDEADBEEF exGraph :=
  c6_order_deterministic trivialParams exGraph 0xDEADBEEF 0xDEADBEEF rfl rfl

end AsmOrder

namespace SSADce

variable {n : Nat}

/-- `pushInputs` only grows the marked set. -/
theorem pushInputs_subset (is : List (Fin n)) :
    ∀ (m : Finset (Fin n)) (wl : List (Fin n)), m ⊆ (pushInputs is m wl).1 := by
  induction is with
  | nil => intro m wl; exact fun x hx => hx
  | cons i is ih =>
    intro m wl
    rw [pushInputs]
    by_cases h : i ∈ m
    · rw [if_pos h]
      exact ih m wl
    · rw [if_neg h]
      exact (Finset.subset_insert i m).trans (ih _ _)

/-- A node marked by `pushInputs` was marked before or is one of the
traversed inputs. -/
theorem pushInputs_fst_mem (is : List (Fin n)) :
    ∀ (m : Finset (Fin n)) (wl : List (Fin n)) (j : Fin n),
      j ∈ (pushInputs is m wl).1 → j ∈ m ∨ j ∈ is := by
  induction is with
  | nil => intro m wl j h; exact Or.inl h
  | cons i is ih =>
    intro m wl j h
    rw [pushInputs] at h
    by_cases hm : i ∈ m
    · rw [if_pos hm] at h
      rcases ih _ _ _ h with h' | h' <;> simp [h']
    · rw [if_neg hm] at h
      rcases ih _ _ _ h with h' | h'
      · rcases Finset.mem_insert.mp h' with rfl | h''
        · simp
        · simp [h'']
      · simp [h']

/-- Every traversed input ends up marked. -/
theorem pushInputs_mem_fst_of_mem (is : List (Fin n)) :
    ∀ (m : Finset (Fin n)) (wl : List (Fin n)) (j : Fin n),
      j ∈ is → j ∈ (pushInputs is m wl).1 := by
  induction is with
  | nil => intro m wl j hj; simp at hj
  | cons i is ih =>
    intro m wl j hj
    rw [pushInputs]
    rcases List.mem_cons.mp hj with rfl | hj'
    · by_cases h : j ∈ m
      · rw [if_pos h]
        exact pushInputs_subset is m wl h
      · rw [if_neg h]
        exact pushInputs_subset _ _ _ (Finset.mem_insert_self _ _)
    · by_cases h : i ∈ m
      · rw [if_pos h]
        exact ih _ _ _ hj'
      · rw [if_neg h]
        exact ih _ _ _ hj'

/-- A worklist entry after `pushInputs` was there before or is an input. -/
theorem pushInputs_snd_mem (is : List (Fin n)) :
    ∀ (m : Finset (Fin n)) (wl : List (Fin n)) (j : Fin n),
      j ∈ (pushInputs is m wl).2 → j ∈ wl ∨ j ∈ is := by
  induction is with
  | nil => intro m wl j h; exact Or.inl h
  | cons i is ih =>
    intro m wl j h
    rw [pushInputs] at h
    by_cases hm : i ∈ m
    · rw [if_pos hm] at h
      rcases ih _ _ _ h with h' | h' <;> simp [h']
    · rw [if_neg hm] at h
      rcases ih _ _ _ h with h' | h'
      · rcases List.mem_cons.mp h' with rfl | h''
        · simp
        · simp [h'']
      · simp [h']

/-- `pushInputs` never drops worklist entries. -/
theorem pushInputs_snd_mono (is : List (Fin n)) :
    ∀ (m : Finset (Fin n)) (wl : List (Fin n)) (j : Fin n),
      j ∈ wl → j ∈ (pushInputs is m wl).2 := by
  induction is with
  | nil => intro m wl j h; exact h
  | cons i is ih =>
    intro m wl j h
    rw [pushInputs]
    by_cases hm : i ∈ m
    · rw [if_pos hm]
      exact ih _ _ _ h
    · rw [if_neg hm]
      exact ih _ _ _ (by simp [h])

/-- A previously unmarked input gets pushed. -/
theorem pushInputs_snd_of_new (is : List (Fin n)) :
    ∀ (m : Finset (Fin n)) (wl : List (Fin n)) (j : Fin n),
      j ∈ is → j ∉ m → j ∈ (pushInputs is m wl).2 := by
  induction is with
  | nil => intro m wl j hj; simp at hj
  | cons i is ih =>
    intro m wl j hj hnm
    rw [pushInputs]
    rcases List.mem_cons.mp hj with rfl | hj'
    · rw [if_neg hnm]
      exact pushInputs_snd_mono _ _ _ _ (by simp)
    · by_cases hm : i ∈ m
      · rw [if_pos hm]
        exact ih _ _ _ hj' hnm
      · rw [if_neg hm]
        by_cases hji : j = i
        · subst hji
          exact pushInputs_snd_mono _ _ _ _ (by simp)
        · exact ih _ _ _ hj' (by simp [Finset.mem_insert, hji, hnm])

/-- Marks and pushes balance: the growth of the marked set equals the
growth of the worklist. -/
theorem pushInputs_card (is : List (Fin n)) :
    ∀ (m : Finset (Fin n)) (wl : List (Fin n)),
      (pushInputs is m wl).1.card + wl.length
        = m.card + (pushInputs is m wl).2.length := by
  induction is with
  | nil => intro m wl; rfl
  | cons i is ih =>
    intro m wl
    rw [pushInputs]
    by_cases hm : i ∈ m
    · rw [if_pos hm]
      exact ih m wl
    · rw [if_neg hm]
      have := ih (insert i m) (i :: wl)
      rw [Finset.card_insert_of_not_mem hm] at this
      simp only [List.length_cons] at this
      omega

/-- The drain only grows the marked set. -/
theorem drain_mono (g : ssa_graph n) :
    ∀ (fuel : Nat) (m : Finset (Fin n)) (wl : List (Fin n)),
      m ⊆ (drain g fuel m wl).1 := by
  intro fuel
  induction fuel with
  | zero => intro m wl; exact fun x h => h
  | succ fuel ih =>
    intro m wl
    cases wl with
    | nil => exact fun x h => h
    | cons h rest =>
      rw [drain]
      exact (pushInputs_subset _ _ _).trans (ih _ _)

/-- Soundness of the drain: any property closed under reverse input edges
that holds of all marked nodes keeps holding, provided the worklist only
holds marked nodes. -/
theorem drain_sound (g : ssa_graph n) (R : Fin n → Prop)
    (hR : ∀ a b, R a → b ∈ g.inputs a → R b) :
    ∀ (fuel : Nat) (m : Finset (Fin n)) (wl : List (Fin n)),
      (∀ j ∈ m, R j) → (∀ j ∈ wl, j ∈ m) →
      ∀ j ∈ (drain g fuel m wl).1, R j := by
  intro fuel
  induction fuel with
  | zero => intro m wl hm _ j hj; exact hm j hj
  | succ fuel ih =>
    intro m wl hm hwl
    cases wl with
    | nil => intro j hj; exact hm j hj
    | cons h rest =>
      rw [drain]
      apply ih
      · intro j hj
        rcases pushInputs_fst_mem _ _ _ _ hj with hj' | hj'
        · exact hm j hj'
        · exact hR h j (hm h (hwl h (by simp))) hj'
      · intro j hj
        rcases pushInputs_snd_mem _ _ _ _ hj with hj' | hj'
        · exact pushInputs_subset _ _ _ (hwl j (by simp [hj']))
        · exact pushInputs_mem_fst_of_mem _ _ _ _ hj'

/-- Completeness core: once the drain empties the worklist, the marked set
is closed under inputs. -/
theorem drain_closed (g : ssa_graph n) :
    ∀ (fuel : Nat) (m : Finset (Fin n)) (wl : List (Fin n)),
      ClosedInv g m wl → (drain g fuel m wl).2 = [] →
      ∀ h' ∈ (drain g fuel m wl).1, ∀ j ∈ g.inputs h',
        j ∈ (drain g fuel m wl).1 := by
  intro fuel
  induction fuel with
  | zero =>
    intro m wl hinv hend h' hm j hj
    rcases hinv h' hm with h | h
    · have hwl : wl = [] := hend
      rw [hwl] at h
      cases h
    · exact h j hj
  | succ fuel ih =>
    intro m wl hinv hend
    cases wl with
    | nil =>
      intro h' hm j hj
      rcases hinv h' hm with h | h
      · cases h
      · exact h j hj
    | cons h rest =>
      rw [drain] at hend ⊢
      apply ih _ _ _ hend
      intro h' hm'
      by_cases hmem : h' ∈ m
      · rcases hinv h' hmem with hwl' | hcl
        · rcases List.mem_cons.mp hwl' with rfl | hr
          · right
            intro j hj
            exact pushInputs_mem_fst_of_mem _ _ _ _ hj
          · left
            exact pushInputs_snd_mono _ _ _ _ hr
        · right
          intro j hj
          exact pushInputs_subset _ _ _ (hcl j hj)
      · rcases pushInputs_fst_mem _ _ _ _ hm' with hm'' | hm''
        · exact absurd hm'' hmem
        · left
          exact pushInputs_snd_of_new _ _ _ _ hm'' hmem

/-- Enough fuel empties the worklist: the measure
`(n − |marked|)·(n+1) + |worklist|` strictly decreases at every pop. -/
theorem drain_terminates (g : ssa_graph n) :
    ∀ (fuel : Nat) (m : Finset (Fin n)) (wl : List (Fin n)),
      (n - m.card) * (n + 1) + wl.length ≤ fuel →
      (drain g fuel m wl).2 = [] := by
  intro fuel
  induction fuel with
  | zero =>
    intro m wl hle
    have hwl : wl = [] := List.eq_nil_of_length_eq_zero (by omega)
    rw [hwl]
    rfl
  | succ fuel ih =>
    intro m wl hle
    cases wl with
    | nil => rfl
    | cons h rest =>
      rw [drain]
      apply ih
      have hcard := pushInputs_card (g.inputs h) m rest
      have hmono := Finset.card_le_card (pushInputs_subset (g.inputs h) m rest)
      have hbound : (pushInputs (g.inputs h) m rest).1.card ≤ n := by
        have := Finset.card_le_univ (pushInputs (g.inputs h) m rest).1
        simpa using this
      have key : ∀ (A B c RL PL F : Nat), A = B + c → PL = RL + c →
          A * (n + 1) + RL ≤ F → B * (n + 1) + PL ≤ F := by
        intro A B c RL PL F h1 h2 h3
        subst h1
        subst h2
        have hstep : B * (n + 1) + (RL + c) ≤ (B + c) * (n + 1) + RL := by
          rw [Nat.add_mul]
          have hc : c ≤ c * (n + 1) := Nat.le_mul_of_pos_right c (Nat.succ_pos n)
          calc B * (n + 1) + (RL + c) = B * (n + 1) + c + RL := by omega
            _ ≤ B * (n + 1) + c * (n + 1) + RL :=
                Nat.add_le_add (Nat.add_le_add_left hc _) (Nat.le_refl _)
        exact le_trans hstep h3
      apply key (n - m.card) (n - (pushInputs (g.inputs h) m rest).1.card)
        ((pushInputs (g.inputs h) m rest).1.card - m.card) rest.length
        (pushInputs (g.inputs h) m rest).2.length fuel
      · omega
      · omega
      · simp only [List.length_cons] at hle
        omega

/-- Membership in the seed's marked set is exactly the root test. -/
theorem seedAux_fst (g : ssa_graph n) :
    ∀ (L : List (Fin n)) (acc : Finset (Fin n) × List (Fin n)) (j : Fin n),
      j ∈ (L.foldl (fun p i => if root g i then (insert i p.1, i :: p.2) else p) acc).1
        ↔ j ∈ acc.1 ∨ (j ∈ L ∧ root g j = true) := by
  intro L
  induction L with
  | nil => intro acc j; simp
  | cons i L ih =>
    intro acc j
    rw [List.foldl_cons]
    by_cases h : root g i = true
    · rw [if_pos h, ih]
      simp only [Finset.mem_insert, List.mem_cons]
      constructor
      · rintro (⟨rfl | hj⟩ | ⟨hj, hr⟩)
        · exact Or.inr ⟨Or.inl rfl, h⟩
        · exact Or.inl hj
        · exact Or.inr ⟨Or.inr hj, hr⟩
      · rintro (hj | ⟨rfl | hj, hr⟩)
        · exact Or.inl (Or.inr hj)
        · exact Or.inl (Or.inl rfl)
        · exact Or.inr ⟨hj, hr⟩
    · rw [if_neg h, ih]
      simp only [List.mem_cons]
      constructor
      · rintro (hj | ⟨hj, hr⟩)
        · exact Or.inl hj
        · exact Or.inr ⟨Or.inr hj, hr⟩
      · rintro (hj | ⟨rfl | hj, hr⟩)
        · exact Or.inl hj
        · exact absurd hr h
        · exact Or.inr ⟨hj, hr⟩

/-- Membership in the seed's worklist is exactly the root test. -/
theorem seedAux_snd (g : ssa_graph n) :
    ∀ (L : List (Fin n)) (acc : Finset (Fin n) × List (Fin n)) (j : Fin n),
      j ∈ (L.foldl (fun p i => if root g i then (insert i p.1, i :: p.2) else p) acc).2
        ↔ j ∈ acc.2 ∨ (j ∈ L ∧ root g j = true) := by
  intro L
  induction L with
  | nil => intro acc j; simp
  | cons i L ih =>
    intro acc j
    rw [List.foldl_cons]
    by_cases h : root g i = true
    · rw [if_pos h, ih]
      simp only [List.mem_cons]
      constructor
      · rintro (⟨rfl | hj⟩ | ⟨hj, hr⟩)
        · exact Or.inr ⟨Or.inl rfl, h⟩
        · exact Or.inl hj
        · exact Or.inr ⟨Or.inr hj, hr⟩
      · rintro (hj | ⟨rfl | hj, hr⟩)
        · exact Or.inl (Or.inr hj)
        · exact Or.inl (Or.inl rfl)
        · exact Or.inr ⟨hj, hr⟩
    · rw [if_neg h, ih]
      simp only [List.mem_cons]
      constructor
      · rintro (hj | ⟨hj, hr⟩)
        · exact Or.inl hj
        · exact Or.inr ⟨Or.inr hj, hr⟩
      · rintro (hj | ⟨rfl | hj, hr⟩)
        · exact Or.inl hj
        · exact absurd hr h
        · exact Or.inr ⟨hj, hr⟩

/-- The seed worklist is at most `n` long. -/
theorem seedAux_len (g : ssa_graph n) :
    ∀ (L : List (Fin n)) (acc : Finset (Fin n) × List (Fin n)),
      ((L.foldl (fun p i => if root g i then (insert i p.1, i :: p.2) else p) acc).2).length
        ≤ acc.2.length + L.length := by
  intro L
  induction L with
  | nil => intro acc; simp
  | cons i L ih =>
    intro acc
    rw [List.foldl_cons]
    by_cases h : root g i = true
    · rw [if_pos h]
      have := ih (insert i acc.1, i :: acc.2)
      simp only [List.length_cons] at this ⊢
      omega
    · rw [if_neg h]
      have := ih acc
      simp only [List.length_cons]
      omega

/-- The fixed point of the drain marks exactly the nodes reachable from a
root-of-effect by reverse input edges. -/
theorem survivors_spec (g : ssa_graph n) (j : Fin n) :
    j ∈ survivors g ↔ Survives g j := by
  have hfst : ∀ x, x ∈ (seed g).1 ↔ root g x = true := by
    intro x
    rw [seed, seedAux_fst]
    simp [List.mem_finRange]
  have hsnd : ∀ x, x ∈ (seed g).2 ↔ root g x = true := by
    intro x
    rw [seed, seedAux_snd]
    simp [List.mem_finRange]
  constructor
  · intro hj
    refine drain_sound g (Survives g) ?_ _ _ _ ?_ ?_ j hj
    · rintro a b ⟨r, hr, hpath⟩ hin
      exact ⟨r, hr, hpath.tail hin⟩
    · intro x hx
      exact ⟨x, (hfst x).mp hx, Relation.ReflTransGen.refl⟩
    · intro x hx
      exact (hfst x).mpr ((hsnd x).mp hx)
  · rintro ⟨r, hr, hpath⟩
    have hterm : (drain g (drain_fuel n) (seed g).1 (seed g).2).2 = [] := by
      apply drain_terminates
      have hlen : (seed g).2.length ≤ n := by
        have := seedAux_len g (List.finRange n) (∅, [])
        simpa [List.length_finRange] using this
      have hsub : n - (seed g).1.card ≤ n := Nat.sub_le _ _
      rw [drain_fuel]
      have h1 : (n - (seed g).1.card) * (n + 1) ≤ n * (n + 1) :=
        Nat.mul_le_mul_right _ hsub
      have h2 : n * (n + 1) ≤ (n + 1) * (n + 1) :=
        Nat.mul_le_mul_right _ (Nat.le_succ n)
      omega
    have hclosed := drain_closed g (drain_fuel n) (seed g).1 (seed g).2
      (fun h hm => Or.inl ((hsnd h).mpr ((hfst h).mp hm))) hterm
    induction hpath with
    | refl => exact drain_mono g _ _ _ ((hfst r).mpr hr)
    | tail hpath hstep ih => exact hclosed _ ih _ hstep

/-- C2: after `o_remove_no_effect` an SSA node has been removed iff it is
not reachable by reverse input edges from any root-of-effect node — a node
whose op is `SSA_if`, carries `WRITE_GLOBALS` or `IMPURE`, or whose
input-0 class is LINK (o_unused.cpp:118). -/
theorem c2_remove_no_effect (g : ssa_graph n) (i : Fin n) :
    i ∈ removedNodes g ↔ ¬ Survives g i := by
  rw [removedNodes, Finset.mem_sdiff]
  simp [survivors_spec g i]

end SSADce

namespace Liveness

variable {k m : Nat}

/-- Membership after a deduplicating push. -/
theorem push_mem (x : Fin k) (wl : List (Fin k)) (y : Fin k) :
    y ∈ push x wl ↔ y = x ∨ y ∈ wl := by
  unfold push
  by_cases h : x ∈ wl
  · rw [if_pos h]
    constructor
    · exact Or.inr
    · rintro (rfl | hy)
      · exact h
      · exact hy
  · rw [if_neg h]
    exact List.mem_cons

/-- A deduplicating push keeps the worklist duplicate-free. -/
theorem push_nodup (x : Fin k) (wl : List (Fin k)) (hn : wl.Nodup) :
    (push x wl).Nodup := by
  unfold push
  by_cases h : x ∈ wl
  · rw [if_pos h]
    exact hn
  · rw [if_neg h]
    exact List.nodup_cons.mpr ⟨h, hn⟩

/-- Membership after pushing a whole list. -/
theorem pushList_mem (is : List (Fin k)) :
    ∀ (wl : List (Fin k)) (y : Fin k),
      y ∈ is.foldl (fun w p => push p w) wl ↔ y ∈ is ∨ y ∈ wl := by
  induction is with
  | nil => intro wl y; simp
  | cons i is ih =>
    intro wl y
    rw [List.foldl_cons, ih, push_mem]
    simp only [List.mem_cons]
    tauto

/-- Pushing a whole list keeps the worklist duplicate-free. -/
theorem pushList_nodup (is : List (Fin k)) :
    ∀ (wl : List (Fin k)), wl.Nodup →
      (is.foldl (fun w p => push p w) wl).Nodup := by
  induction is with
  | nil => intro wl h; exact h
  | cons i is ih => intro wl h; exact ih _ (push_nodup i wl h)

/-- Monotonicity of the successor-union fold. -/
theorem succFold_mono (f f' : Fin k → Finset (Fin m)) (hf : ∀ x, f x ⊆ f' x) :
    ∀ (L : List (Fin k)) (acc acc' : Finset (Fin m)), acc ⊆ acc' →
      L.foldl (fun a s => a ∪ f s) acc ⊆ L.foldl (fun a s => a ∪ f' s) acc' := by
  intro L
  induction L with
  | nil => intro acc acc' h; exact h
  | cons s L ih =>
    intro acc acc' h
    rw [List.foldl_cons, List.foldl_cons]
    exact ih _ _ (Finset.union_subset_union h (hf s))

/-- Growing the `in` sets grows every live-out union. -/
theorem succUnion_mono (g : live_graph k m) (f f' : Fin k → Finset (Fin m))
    (hf : ∀ x, f x ⊆ f' x) (h : Fin k) :
    succUnion g f h ⊆ succUnion g f' h :=
  succFold_mono f f' hf _ _ _ (Finset.Subset.refl _)

/-- The successor-union fold only reads the successors' `in` sets. -/
theorem succFold_congr (f f' : Fin k → Finset (Fin m)) :
    ∀ (L : List (Fin k)), (∀ s ∈ L, f s = f' s) →
      ∀ (acc : Finset (Fin m)),
        L.foldl (fun a s => a ∪ f s) acc = L.foldl (fun a s => a ∪ f' s) acc := by
  intro L
  induction L with
  | nil => intro _ acc; rfl
  | cons s L ih =>
    intro hs acc
    rw [List.foldl_cons, List.foldl_cons, hs s (by simp),
      ih (fun x hx => hs x (by simp [hx]))]

/-- `succUnion` congruence on the successors. -/
theorem succUnion_congr (g : live_graph k m) (f f' : Fin k → Finset (Fin m))
    (h : Fin k) (hs : ∀ s ∈ g.outputs h, f s = f' s) :
    succUnion g f h = succUnion g f' h :=
  succFold_congr f f' _ hs _

/-- The taken branch of the block-processing step. -/
theorem processNode_taken (g : live_graph k m) (st : LState k m) (h : Fin k)
    (rest : List (Fin k))
    (hc : h ∉ st.processed
      ∨ ¬(succUnion g st.lin h ∩ st.lout h ∪ st.lin h) = st.lin h) :
    processNode g st h rest =
      ⟨Function.update st.lin h (succUnion g st.lin h ∩ st.lout h ∪ st.lin h),
       st.lout, insert h st.processed,
       (g.inputs h).foldl (fun wl p => push p wl) rest⟩ := by
  simp only [processNode]
  rw [if_pos hc]

/-- The skip branch: an already-processed block whose `in` set is stable
only pops. -/
theorem processNode_skip (g : live_graph k m) (st : LState k m) (h : Fin k)
    (rest : List (Fin k))
    (hc : ¬(h ∉ st.processed
      ∨ ¬(succUnion g st.lin h ∩ st.lout h ∪ st.lin h) = st.lin h)) :
    processNode g st h rest = ⟨st.lin, st.lout, st.processed, rest⟩ := by
  simp only [processNode]
  rw [if_neg hc]
  push_neg at hc
  rw [hc.2, Function.update_eq_self]

/-- The step only grows the `in` sets. -/
theorem processNode_lin_sub (g : live_graph k m) (st : LState k m) (h : Fin k)
    (rest : List (Fin k)) (x : Fin k) :
    st.lin x ⊆ (processNode g st h rest).lin x := by
  by_cases hc : h ∉ st.processed
      ∨ ¬(succUnion g st.lin h ∩ st.lout h ∪ st.lin h) = st.lin h
  · rw [processNode_taken g st h rest hc]
    dsimp only
    by_cases hx : x = h
    · subst hx
      rw [Function.update_same]
      exact Finset.subset_union_right
    · rw [Function.update_noteq hx]
  · rw [processNode_skip g st h rest hc]

/-- The step only grows the processed set. -/
theorem processNode_processed_sub (g : live_graph k m) (st : LState k m)
    (h : Fin k) (rest : List (Fin k)) :
    st.processed ⊆ (processNode g st h rest).processed := by
  by_cases hc : h ∉ st.processed
      ∨ ¬(succUnion g st.lin h ∩ st.lout h ∪ st.lin h) = st.lin h
  · rw [processNode_taken g st h rest hc]
    dsimp only
    exact Finset.subset_insert _ _
  · rw [processNode_skip g st h rest hc]

/-- The step preserves the worklist's freedom from duplicates. -/
theorem processNode_nodup (g : live_graph k m) (st : LState k m) (h : Fin k)
    (rest : List (Fin k)) (hr : rest.Nodup) :
    (processNode g st h rest).wl.Nodup := by
  by_cases hc : h ∉ st.processed
      ∨ ¬(succUnion g st.lin h ∩ st.lout h ∪ st.lin h) = st.lin h
  · rw [processNode_taken g st h rest hc]
    dsimp only
    exact pushList_nodup _ _ hr
  · rw [processNode_skip g st h rest hc]
    dsimp only
    exact hr

/-- The step preserves the dataflow invariant. -/
theorem processNode_inv (g : live_graph k m) (hio : EdgeSym g)
    (st : LState k m) (h : Fin k) (rest : List (Fin k))
    (hwl : st.wl = h :: rest) (hinv : LInv g st) :
    LInv g (processNode g st h rest) := by
  obtain ⟨hA, hB, hU, hS⟩ := hinv
  by_cases hc : h ∉ st.processed
      ∨ ¬(succUnion g st.lin h ∩ st.lout h ∪ st.lin h) = st.lin h
  · rw [processNode_taken g st h rest hc]
    unfold LInv
    dsimp only
    have hmono : ∀ x, st.lin x ⊆
        Function.update st.lin h (succUnion g st.lin h ∩ st.lout h ∪ st.lin h) x := by
      intro x
      by_cases hx : x = h
      · subst hx
        rw [Function.update_same]
        exact Finset.subset_union_right
      · rw [Function.update_noteq hx]
    refine ⟨fun x => (hA x).trans (hmono x), hB, ?_, ?_⟩
    · intro x
      by_cases hx : x = h
      · subst hx
        rw [Function.update_same]
        intro a ha
        rcases Finset.mem_union.mp ha with ha | ha
        · rcases Finset.mem_inter.mp ha with ⟨h1, h2⟩
          refine Finset.mem_union_right _ (Finset.mem_inter.mpr ⟨?_, ?_⟩)
          · exact succUnion_mono g st.lin _ hmono x h1
          · rw [← hB x]
            exact h2
        · have := hU x ha
          rcases Finset.mem_union.mp this with h1 | h1
          · exact Finset.mem_union_left _ h1
          · rcases Finset.mem_inter.mp h1 with ⟨ha1, ha2⟩
            exact Finset.mem_union_right _
              (Finset.mem_inter.mpr ⟨succUnion_mono g _ _ hmono x ha1, ha2⟩)
      · rw [Function.update_noteq hx]
        intro a ha
        have := hU x ha
        rcases Finset.mem_union.mp this with h1 | h1
        · exact Finset.mem_union_left _ h1
        · rcases Finset.mem_inter.mp h1 with ⟨ha1, ha2⟩
          exact Finset.mem_union_right _
            (Finset.mem_inter.mpr ⟨succUnion_mono g _ _ hmono x ha1, ha2⟩)
    · intro x hxproc hxwl
      rw [pushList_mem] at hxwl
      push_neg at hxwl
      obtain ⟨hxin, hxrest⟩ := hxwl
      have hsuc : succUnion g
          (Function.update st.lin h (succUnion g st.lin h ∩ st.lout h ∪ st.lin h)) x
            = succUnion g st.lin x := by
        apply succUnion_congr
        intro s hs
        have hxs : ¬s = h := by
          rintro rfl
          exact hxin (hio x s hs)
        rw [Function.update_noteq hxs]
      rw [hsuc]
      by_cases hx : x = h
      · subst hx
        rw [Function.update_same]
        intro a ha
        rcases Finset.mem_inter.mp ha with ⟨h1, h2⟩
        apply Finset.mem_union_left
        refine Finset.mem_inter.mpr ⟨h1, ?_⟩
        rw [hB x]
        exact h2
      · rw [Function.update_noteq hx]
        refine hS x ?_ ?_
        · rcases Finset.mem_insert.mp hxproc with h1 | h1
          · exact absurd h1 hx
          · exact h1
        · rw [hwl]
          intro hmem
          rcases List.mem_cons.mp hmem with h1 | h1
          · exact hx h1
          · exact hxrest h1
  · rw [processNode_skip g st h rest hc]
    unfold LInv
    dsimp only
    push_neg at hc
    obtain ⟨hproc, htemp⟩ := hc
    refine ⟨hA, hB, hU, ?_⟩
    intro x hxproc hxwl
    by_cases hx : x = h
    · subst hx
      intro a ha
      rcases Finset.mem_inter.mp ha with ⟨h1, h2⟩
      rw [← htemp]
      apply Finset.mem_union_left
      refine Finset.mem_inter.mpr ⟨h1, ?_⟩
      rw [hB x]
      exact h2
    · refine hS x hxproc ?_
      rw [hwl]
      intro hmem
      rcases List.mem_cons.mp hmem with h1 | h1
      · exact hx h1
      · exact hxwl h1

/-- The potential is bounded by total bits plus block count. -/
theorem potential_le (st : LState k m) : potential st ≤ k * m + k := by
  unfold potential
  have h1 : (∑ h : Fin k, (m - (st.lin h).card)) ≤ ∑ _h : Fin k, m :=
    Finset.sum_le_sum (fun i _ => Nat.sub_le _ _)
  have h2 : (∑ _h : Fin k, m) = k * m := by
    rw [Finset.sum_const, Finset.card_univ, Fintype.card_fin, smul_eq_mul]
  omega

/-- The taken branch strictly decreases the potential: either a new block
is processed or some `in` set strictly grows. -/
theorem processNode_potential (g : live_graph k m) (st : LState k m)
    (h : Fin k) (rest : List (Fin k))
    (hc : h ∉ st.processed
      ∨ ¬(succUnion g st.lin h ∩ st.lout h ∪ st.lin h) = st.lin h) :
    potential (processNode g st h rest) + 1 ≤ potential st := by
  rw [processNode_taken g st h rest hc]
  unfold potential
  dsimp only
  set temp := succUnion g st.lin h ∩ st.lout h ∪ st.lin h with htemp
  have hins : st.processed.card ≤ (insert h st.processed).card :=
    Finset.card_le_card (Finset.subset_insert _ _)
  have hinsk : (insert h st.processed).card ≤ k := by
    have := Finset.card_le_univ (insert h st.processed)
    simpa [Fintype.card_fin] using this
  rcases hc with hc | hc
  · have hcard : (insert h st.processed).card = st.processed.card + 1 :=
      Finset.card_insert_of_not_mem hc
    have hsum : (∑ x : Fin k, (m - (Function.update st.lin h temp x).card))
        ≤ ∑ x : Fin k, (m - (st.lin x).card) := by
      apply Finset.sum_le_sum
      intro i _
      by_cases hi : i = h
      · subst hi
        rw [Function.update_same]
        have : (st.lin i).card ≤ temp.card :=
          Finset.card_le_card (htemp ▸ Finset.subset_union_right)
        omega
      · rw [Function.update_noteq hi]
    omega
  · have hss : st.lin h ⊂ temp :=
      Finset.ssubset_iff_subset_ne.mpr
        ⟨htemp ▸ Finset.subset_union_right, fun he => hc he.symm⟩
    have hlt : (st.lin h).card < temp.card := Finset.card_lt_card hss
    have hle : temp.card ≤ m := by
      have := Finset.card_le_univ temp
      simpa [Fintype.card_fin] using this
    have hfun : (fun x => m - (Function.update st.lin h temp x).card)
        = Function.update (fun x => m - (st.lin x).card) h (m - temp.card) := by
      funext x
      by_cases hx : x = h
      · subst hx
        rw [Function.update_same, Function.update_same]
      · rw [Function.update_noteq hx, Function.update_noteq hx]
    have hsum : (∑ x : Fin k, (m - (Function.update st.lin h temp x).card)) + 1
        ≤ ∑ x : Fin k, (m - (st.lin x).card) := by
      have hrw : (∑ x : Fin k, (m - (Function.update st.lin h temp x).card))
          = ∑ x : Fin k, Function.update (fun x => m - (st.lin x).card) h (m - temp.card) x := by
        exact Finset.sum_congr rfl (fun x _ => by rw [congrFun hfun x])
      rw [hrw, Finset.sum_update_of_mem (Finset.mem_univ h),
        Finset.sum_eq_sum_diff_singleton_add (Finset.mem_univ h)
          (fun x => m - (st.lin x).card)]
      omega
    omega

/-- Every pop strictly decreases the drain measure. -/
theorem processNode_measure (g : live_graph k m) (st : LState k m) (h : Fin k)
    (rest : List (Fin k)) (hwl : st.wl = h :: rest) (hn : st.wl.Nodup) :
    measureL (processNode g st h rest) + 1 ≤ measureL st := by
  have hrn : rest.Nodup := by
    rw [hwl] at hn
    exact (List.nodup_cons.mp hn).2
  by_cases hc : h ∉ st.processed
      ∨ ¬(succUnion g st.lin h ∩ st.lout h ∪ st.lin h) = st.lin h
  · have hpot := processNode_potential g st h rest hc
    have hlen : (processNode g st h rest).wl.length ≤ k := by
      have hnd := processNode_nodup g st h rest hrn
      have := List.Nodup.length_le_card hnd
      simpa [Fintype.card_fin] using this
    unfold measureL
    obtain ⟨p', hp'⟩ : ∃ p', potential st = p' + 1 := ⟨potential st - 1, by omega⟩
    have hmul : potential (processNode g st h rest) * (k + 1) ≤ p' * (k + 1) :=
      Nat.mul_le_mul_right _ (by omega)
    rw [hp', Nat.succ_mul]
    rw [hwl]
    simp only [List.length_cons]
    omega
  · rw [processNode_skip g st h rest hc]
    unfold measureL potential
    dsimp only
    rw [hwl]
    simp only [List.length_cons]
    omega

/-- A drain on an empty worklist is the identity. -/
theorem drainL_nil (g : live_graph k m) (fuel : Nat) (st : LState k m)
    (h : st.wl = []) : drainL g fuel st = st := by
  cases fuel with
  | zero => rfl
  | succ fuel => simp only [drainL, h]

/-- The drain preserves the dataflow invariant. -/
theorem drainL_inv (g : live_graph k m) (hio : EdgeSym g) :
    ∀ (fuel : Nat) (st : LState k m), LInv g st → LInv g (drainL g fuel st) := by
  intro fuel
  induction fuel with
  | zero => intro st h; exact h
  | succ fuel ih =>
    intro st hinv
    rcases hwl : st.wl with _ | ⟨h, rest⟩
    · simp only [drainL, hwl]
      exact hinv
    · simp only [drainL, hwl]
      exact ih _ (processNode_inv g hio st h rest hwl hinv)

/-- The drain only grows the processed set. -/
theorem drainL_processed_sub (g : live_graph k m) :
    ∀ (fuel : Nat) (st : LState k m),
      st.processed ⊆ (drainL g fuel st).processed := by
  intro fuel
  induction fuel with
  | zero => intro st; exact fun x h => h
  | succ fuel ih =>
    intro st
    rcases hwl : st.wl with _ | ⟨h, rest⟩
    · simp only [drainL, hwl]
      exact fun x h => h
    · simp only [drainL, hwl]
      exact (processNode_processed_sub g st h rest).trans (ih _)

/-- The drain keeps the worklist duplicate-free. -/
theorem drainL_nodup (g : live_graph k m) :
    ∀ (fuel : Nat) (st : LState k m), st.wl.Nodup → (drainL g fuel st).wl.Nodup := by
  intro fuel
  induction fuel with
  | zero => intro st h; exact h
  | succ fuel ih =>
    intro st hn
    rcases hwl : st.wl with _ | ⟨h, rest⟩
    · simp only [drainL, hwl]
      rw [hwl] at hn
      exact hn
    · simp only [drainL, hwl]
      refine ih _ (processNode_nodup g st h rest ?_)
      rw [hwl] at hn
      exact (List.nodup_cons.mp hn).2

/-- With fuel at least the measure, the drain empties the worklist. -/
theorem drainL_terminates (g : live_graph k m) :
    ∀ (fuel : Nat) (st : LState k m), st.wl.Nodup → measureL st ≤ fuel →
      (drainL g fuel st).wl = [] := by
  intro fuel
  induction fuel with
  | zero =>
    intro st _ hle
    have hnil : st.wl = [] := by
      unfold measureL at hle
      exact List.eq_nil_of_length_eq_zero (by omega)
    exact hnil
  | succ fuel ih =>
    intro st hn hle
    rcases hwl : st.wl with _ | ⟨h, rest⟩
    · simp only [drainL, hwl]
    · simp only [drainL, hwl]
      refine ih _ ?_ ?_
      · refine processNode_nodup g st h rest ?_
        rw [hwl] at hn
        exact (List.nodup_cons.mp hn).2
      · have := processNode_measure g st h rest hwl hn
        omega

/-- The head of the worklist ends up processed. -/
theorem drainL_head (g : live_graph k m) (st : LState k m) (h : Fin k)
    (rest : List (Fin k)) (hwl : st.wl = h :: rest) (hproc : h ∉ st.processed)
    (fuel : Nat) : h ∈ (drainL g (fuel + 1) st).processed := by
  simp only [drainL, hwl]
  apply drainL_processed_sub
  rw [processNode_taken g st h rest (Or.inl hproc)]
  exact Finset.mem_insert_self _ _

/-- The measure is uniformly below `liveFuel` on duplicate-free states. -/
theorem measure_bound (st : LState k m) (hn : st.wl.Nodup) :
    measureL st ≤ liveFuel k m := by
  have h1 := potential_le st
  have h2 : st.wl.length ≤ k := by
    have := List.Nodup.length_le_card hn
    simpa [Fintype.card_fin] using this
  unfold measureL liveFuel
  have h3 : potential st * (k + 1) ≤ (k * m + k) * (k + 1) :=
    Nat.mul_le_mul_right _ h1
  have h4 : (k * m + k) * (k + 1) ≤ (k * m + k + 1) * (k + 1) :=
    Nat.mul_le_mul_right _ (by omega)
  omega

/-- The reenter loop preserves the dataflow invariant. -/
theorem reenter_inv (g : live_graph k m) (hio : EdgeSym g) :
    ∀ (fo : Nat) (st : LState k m), LInv g st → LInv g (reenter g fo st) := by
  intro fo
  induction fo with
  | zero =>
    intro st hinv
    simp only [reenter]
    have h1 := drainL_inv g hio (liveFuel k m) st hinv
    split
    · exact h1
    · exact h1
  | succ fo ih =>
    intro st hinv
    simp only [reenter]
    have h1 := drainL_inv g hio (liveFuel k m) st hinv
    split
    · exact h1
    · apply ih
      obtain ⟨hA, hB, hU, hS⟩ := h1
      refine ⟨hA, hB, hU, ?_⟩
      intro x hx hxwl
      refine hS x hx ?_
      intro hmem
      exact hxwl ((pushList_mem _ _ _).mpr (Or.inr hmem))

/-- After one full drain, the processed set has grown past the entry's
unprocessed worklist head, if any. -/
theorem drainL_card_progress (g : live_graph k m) (st : LState k m)
    (hn : st.wl.Nodup) (hu : ∀ u ∈ st.wl, u ∉ st.processed) :
    st.processed.card + (if st.wl = [] then 0 else 1)
      ≤ ((drainL g (liveFuel k m) st).processed).card := by
  rcases hwl : st.wl with _ | ⟨h, rest⟩
  · rw [drainL_nil g _ st hwl]
    simp
  · simp only [reduceCtorEq, if_false]
    have hh : h ∈ (drainL g (liveFuel k m) st).processed := by
      obtain ⟨f', hf'⟩ : ∃ f', liveFuel k m = f' + 1 :=
        ⟨liveFuel k m - 1, by unfold liveFuel; omega⟩
      rw [hf']
      exact drainL_head g st h rest hwl (hu h (by rw [hwl]; simp)) f'
    have hsub : insert h st.processed ⊆ (drainL g (liveFuel k m) st).processed := by
      intro x hx
      rcases Finset.mem_insert.mp hx with rfl | hx
      · exact hh
      · exact drainL_processed_sub g _ st hx
    have hcard := Finset.card_le_card hsub
    rw [Finset.card_insert_of_not_mem (hu h (by rw [hwl]; simp))] at hcard
    omega

/-- With the outer fuel at least the number of unprocessed blocks, the
reentering loop ends with an empty worklist and every block processed. -/
theorem reenter_final (g : live_graph k m) :
    ∀ (fo : Nat) (st : LState k m), st.wl.Nodup →
      (∀ u ∈ st.wl, u ∉ st.processed) →
      k ≤ fo + st.processed.card + (if st.wl = [] then 0 else 1) →
      (reenter g fo st).wl = []
        ∧ ∀ h : Fin k, h ∈ (reenter g fo st).processed := by
  intro fo
  induction fo with
  | zero =>
    intro st hn hu hb
    simp only [reenter]
    have hterm := drainL_terminates g (liveFuel k m) st hn (measure_bound st hn)
    have hprog := drainL_card_progress g st hn hu
    cases he : ((List.finRange k).filter
        (fun h => h ∉ (drainL g (liveFuel k m) st).processed)).isEmpty with
    | true =>
      rw [if_pos rfl]
      refine ⟨hterm, ?_⟩
      intro x
      have hnil := List.isEmpty_iff.mp he
      by_contra hx
      have : x ∈ (List.finRange k).filter
          (fun h => h ∉ (drainL g (liveFuel k m) st).processed) := by
        rw [List.mem_filter]
        exact ⟨List.mem_finRange x, by simpa using hx⟩
      rw [hnil] at this
      cases this
    | false =>
      exfalso
      have hne := List.isEmpty_eq_false_iff_exists_mem.mp he
      obtain ⟨u, hu'⟩ := hne
      rw [List.mem_filter] at hu'
      have hun : u ∉ (drainL g (liveFuel k m) st).processed := by simpa using hu'.2
      have hk : ((drainL g (liveFuel k m) st).processed).card ≤ k := by
        have := Finset.card_le_univ ((drainL g (liveFuel k m) st).processed)
        simpa [Fintype.card_fin] using this
      have hku : ((drainL g (liveFuel k m) st).processed).card = k := by omega
      have huniv : (drainL g (liveFuel k m) st).processed = Finset.univ :=
        Finset.eq_univ_of_card _ (by rw [hku, Fintype.card_fin])
      rw [huniv] at hun
      exact hun (Finset.mem_univ u)
  | succ fo ih =>
    intro st hn hu hb
    simp only [reenter]
    have hterm := drainL_terminates g (liveFuel k m) st hn (measure_bound st hn)
    have hprog := drainL_card_progress g st hn hu
    cases he : ((List.finRange k).filter
        (fun h => h ∉ (drainL g (liveFuel k m) st).processed)).isEmpty with
    | true =>
      rw [if_pos rfl]
      refine ⟨hterm, ?_⟩
      intro x
      have hnil := List.isEmpty_iff.mp he
      by_contra hx
      have : x ∈ (List.finRange k).filter
          (fun h => h ∉ (drainL g (liveFuel k m) st).processed) := by
        rw [List.mem_filter]
        exact ⟨List.mem_finRange x, by simpa using hx⟩
      rw [hnil] at this
      cases this
    | false =>
      rw [if_neg (by simp)]
      obtain ⟨u, hu'⟩ := List.isEmpty_eq_false_iff_exists_mem.mp he
      have humem : u ∈ ((List.finRange k).filter
          (fun h => h ∉ (drainL g (liveFuel k m) st).processed)).foldl
            (fun wl p => push p wl) (drainL g (liveFuel k m) st).wl :=
        (pushList_mem _ _ _).mpr (Or.inl hu')
      refine ih _ ?_ ?_ ?_
      · exact pushList_nodup _ _ (by rw [hterm]; exact List.nodup_nil)
      · intro x hx
        rcases (pushList_mem _ _ _).mp hx with hx' | hx'
        · rw [List.mem_filter] at hx'
          simpa using hx'.2
        · rw [hterm] at hx'
          cases hx'
      · have hne2 : ¬(((List.finRange k).filter
            (fun h => h ∉ (drainL g (liveFuel k m) st).processed)).foldl
              (fun wl p => push p wl) (drainL g (liveFuel k m) st).wl) = [] :=
          List.ne_nil_of_mem humem
        rw [if_neg hne2]
        dsimp only
        omega

/-- The arg-read loop of `calc_liveness` never fires: the freshly
allocated `out` sets are still empty. -/
theorem argFold_id (g : live_graph k m) :
    ∀ (L : List (Fin m)) (st : LState k m), st.lout g.entry = ∅ →
      (L.foldl (fun st i =>
        if i ∈ st.lout g.entry then
          { st with lin := Function.update st.lin g.entry (insert i (st.lin g.entry)) }
        else st) st) = st := by
  intro L
  induction L with
  | nil => intro st _; rfl
  | cons i L ih =>
    intro st hout
    rw [List.foldl_cons, if_neg (by rw [hout]; exact Finset.not_mem_empty i)]
    exact ih st hout

/-- The seed fold keeps the worklist duplicate-free. -/
theorem seedWl_nodup (g : live_graph k m) :
    ∀ (L : List (Fin k)) (wl : List (Fin k)), wl.Nodup →
      (L.foldl (fun wl h => if g.outputs h = [] then push h wl else wl) wl).Nodup := by
  intro L
  induction L with
  | nil => intro wl h; exact h
  | cons i L ih =>
    intro wl hn
    rw [List.foldl_cons]
    by_cases h : g.outputs i = []
    · rw [if_pos h]
      exact ih _ (push_nodup i wl hn)
    · rw [if_neg h]
      exact ih _ hn

/-- The initial state of `calc_liveness`: `in` = GEN, `out` = ¬KILL,
nothing processed, worklist duplicate-free. -/
theorem initState_spec (g : live_graph k m) :
    (initState g).lin = (fun h => GEN (g.code h))
    ∧ (initState g).lout = (fun h => killComp (g.code h))
    ∧ (initState g).processed = ∅
    ∧ (initState g).wl.Nodup := by
  unfold initState
  dsimp only
  rw [argFold_id g g.argLocs ⟨fun _ => ∅, fun _ => ∅, ∅, []⟩ rfl]
  refine ⟨rfl, rfl, rfl, ?_⟩
  exact seedWl_nodup g (List.finRange k) [] List.nodup_nil

/-- C3: after `calc_liveness` returns, every block satisfies the dataflow
equations `in = (∪ succ.in) ∩ ¬KILL ∪ GEN` and `out = ∪ succ.in`
(o_unused.cpp:1046). -/
theorem c3_liveness_fixed_point (g : live_graph k m) (hio : EdgeSym g)
    (h : Fin k) :
    (calc_liveness g).1 h
      = succUnion g (calc_liveness g).1 h ∩ killComp (g.code h)
        ∪ GEN (g.code h)
    ∧ (calc_liveness g).2 h = succUnion g (calc_liveness g).1 h := by
  obtain ⟨hlin, hlout, hproc, hnd⟩ := initState_spec g
  have hinv0 : LInv g (initState g) := by
    refine ⟨?_, ?_, ?_, ?_⟩
    · intro x
      rw [hlin]
    · intro x
      rw [hlout]
    · intro x
      rw [hlin]
      exact Finset.subset_union_left
    · intro x hx
      rw [hproc] at hx
      simp at hx
  have hinvF := reenter_inv g hio k (initState g) hinv0
  have hfin := reenter_final g k (initState g) hnd
    (by
      intro u hu'
      rw [hproc]
      simp)
    (by
      rw [hproc]
      simp only [Finset.card_empty]
      split <;> omega)
  obtain ⟨hwlF, hprocF⟩ := hfin
  obtain ⟨hA, hB, hU, hS⟩ := hinvF
  constructor
  · show (reenter g k (initState g)).lin h
      = succUnion g (reenter g k (initState g)).lin h ∩ killComp (g.code h)
        ∪ GEN (g.code h)
    apply Finset.Subset.antisymm
    · intro a ha
      rcases Finset.mem_union.mp (hU h ha) with h1 | h1
      · exact Finset.mem_union_right _ h1
      · exact Finset.mem_union_left _ h1
    · apply Finset.union_subset
      · exact hS h (hprocF h) (by rw [hwlF]; simp)
      · exact hA h
  · rfl

/-- Witness for C3 on the one-block, one-locator graph. -/
theorem c3_witness :
    (calc_liveness exLive).1 0
      = succUnion exLive (calc_liveness exLive).1 0 ∩ killComp (exLive.code 0)
        ∪ GEN (exLive.code 0)
    ∧ (calc_liveness exLive).2 0 = succUnion exLive (calc_liveness exLive).1 0 :=
  c3_liveness_fixed_point exLive (fun _ _ hb => nomatch hb) 0

end Liveness

namespace ToLinear

/-- The min fold never exceeds its accumulator. -/
theorem foldl_min_le_acc :
    ∀ (L : List (Nat × Int)) (acc : Int),
      L.foldl (fun mn e => min mn e.2) acc ≤ acc := by
  intro L
  induction L with
  | nil => intro acc; exact le_refl acc
  | cons e L ih =>
    intro acc
    rw [List.foldl_cons]
    exact (ih _).trans (min_le_left _ _)

/-- `min` is a lower bound of every case value. -/
theorem foldl_min_le :
    ∀ (L : List (Nat × Int)) (acc : Int) (e : Nat × Int), e ∈ L →
      L.foldl (fun mn e => min mn e.2) acc ≤ e.2 := by
  intro L
  induction L with
  | nil => intro acc e he; cases he
  | cons x L ih =>
    intro acc e he
    rw [List.foldl_cons]
    rcases List.mem_cons.mp he with rfl | he'
    · exact (foldl_min_le_acc L _).trans (min_le_right _ _)
    · exact ih _ e he'

theorem minCase_le (node : lnode) : ∀ e ∈ node.outputs, minCase node ≤ e.2 :=
  fun e he => foldl_min_le node.outputs 255 e he

/-- The max fold is at least its accumulator. -/
theorem foldl_max_ge_acc :
    ∀ (L : List (Nat × Int)) (acc : Int),
      acc ≤ L.foldl (fun mx e => max mx e.2) acc := by
  intro L
  induction L with
  | nil => intro acc; exact le_refl acc
  | cons e L ih =>
    intro acc
    rw [List.foldl_cons]
    exact (le_max_left _ _).trans (ih _)

/-- `max` is an upper bound of every case value. -/
theorem foldl_max_ge :
    ∀ (L : List (Nat × Int)) (acc : Int) (e : Nat × Int), e ∈ L →
      e.2 ≤ L.foldl (fun mx e => max mx e.2) acc := by
  intro L
  induction L with
  | nil => intro acc e he; cases he
  | cons x L ih =>
    intro acc e he
    rw [List.foldl_cons]
    rcases List.mem_cons.mp he with rfl | he'
    · exact (le_max_right _ _).trans (foldl_max_ge_acc L _)
    · exact ih _ e he'

theorem maxCase_ge (node : lnode) : ∀ e ∈ node.outputs, e.2 ≤ maxCase node :=
  fun e he => foldl_max_ge node.outputs 0 e he

/-- The table-filling fold preserves the table length. -/
theorem foldl_set_length (f : Nat × Int → locator) (ind : Nat × Int → Nat) :
    ∀ (L : List (Nat × Int)) (tbl : List locator),
      (L.foldl (fun t e => t.set (ind e) (f e)) tbl).length = tbl.length := by
  intro L
  induction L with
  | nil => intro tbl; rfl
  | cons x L ih =>
    intro tbl
    rw [List.foldl_cons, ih, List.length_set]

/-- Entries at indices not written by the fold are untouched. -/
theorem foldl_set_other (f : Nat × Int → locator) (ind : Nat × Int → Nat) :
    ∀ (L : List (Nat × Int)) (tbl : List locator) (j : Nat),
      (∀ x ∈ L, ¬ind x = j) →
      (L.foldl (fun t e => t.set (ind e) (f e)) tbl)[j]? = tbl[j]? := by
  intro L
  induction L with
  | nil => intro tbl j _; rfl
  | cons x L ih =>
    intro tbl j hj
    rw [List.foldl_cons, ih _ j (fun y hy => hj y (List.mem_cons_of_mem _ hy)),
      List.getElem?_set_ne (hj x (List.mem_cons_self _ _))]

/-- With in-bounds, pairwise-distinct indices, every written entry is
retrievable. -/
theorem foldl_set_get (f : Nat × Int → locator) (ind : Nat × Int → Nat) :
    ∀ (L : List (Nat × Int)) (tbl : List locator),
      (∀ e ∈ L, ind e < tbl.length) →
      L.Pairwise (fun a b => ¬ind a = ind b) →
      ∀ e ∈ L, (L.foldl (fun t e => t.set (ind e) (f e)) tbl)[ind e]? = some (f e) := by
  intro L
  induction L with
  | nil => intro tbl _ _ e he; cases he
  | cons x L ih =>
    intro tbl hb hp e he
    rw [List.pairwise_cons] at hp
    rw [List.foldl_cons]
    rcases List.mem_cons.mp he with rfl | he'
    · rw [foldl_set_other f ind L _ (ind e)
        (fun y hy hc => hp.1 y hy hc.symm)]
      rw [List.getElem?_set_self (hb e (List.mem_cons_self _ _))]
    · refine ih _ ?_ hp.2 e he'
      intro y hy
      rw [List.length_set]
      exact hb y (List.mem_cons_of_mem _ hy)

/-- `resizeFill` produces exactly the requested length. -/
theorem resizeFill_length (l : List locator) (sz : Nat) (v : locator) :
    (resizeFill l sz v).length = sz := by
  unfold resizeFill
  by_cases h : sz ≤ l.length
  · rw [if_pos h, List.length_take]
    omega
  · rw [if_neg h, List.length_append, List.length_replicate]
    omega

/-- `get_label` reads only the node's label. -/
theorem get_label_label (ord : List Nat) (idx : Nat) (a b : lnode)
    (h : a.label = b.label) : get_label ord idx a = get_label ord idx b := by
  unfold get_label
  rw [h]

/-- Replacing a node with one of equal label leaves all labels alone. -/
theorem getD_set_label (g : List lnode) (idx j : Nat) (nd : lnode)
    (h : nd.label = (g.getD idx default).label) :
    ((g.set idx nd).getD j default).label = (g.getD j default).label := by
  rw [List.getD_eq_getElem?_getD, List.getD_eq_getElem?_getD, List.getElem?_set]
  by_cases hij : idx = j
  · subst hij
    by_cases hlen : idx < g.length
    · rw [if_pos rfl, if_pos hlen]
      rw [List.getD_eq_getElem?_getD] at h
      exact h
    · rw [if_pos rfl, if_neg hlen,
        List.getElem?_eq_none (by omega : g.length ≤ idx)]
  · rw [if_neg hij]

/-- C5: `to_linear` appends, after all main code, one block per switch in
order; each block is the `switch_lo_table(cfg)` label followed by
`N = max_case − min_case + 1` `ASM_DATA` entries, then the
`switch_hi_table(cfg)` label followed by `N` more, where entry
`case_value − min_case` holds the target's label advanced by −1 tagged as
the low (resp. high) pointer byte, and the switch terminator's `arg` and
`alt` offsets are pre-advanced by `−min_case` (o_unused.cpp:565). -/
theorem c5_switch_table_emission (Q : lparams) (entry : locator)
    (g : List lnode) (ord : List Nat) (gcur : List lnode) (tbl : List locator)
    (blocks : List (List asm_inst_t)) (idx : Nat)
    (hsw : Q.is_switch_op ((gcur.getD idx default).output_inst.op) = true)
    (hrange : ∀ e ∈ (gcur.getD idx default).outputs, 0 ≤ e.2 ∧ e.2 ≤ 255)
    (hdist : (gcur.getD idx default).outputs.Pairwise (fun a b => ¬a.2 = b.2)) :
    (to_linear Q entry g ord
      = mainCode Q entry g ord ++ (tableBlocks Q ord g).flatten)
    ∧ ∃ tbl2 : List locator,
        prepNode Q ord (gcur, tbl, blocks) idx
          = (gcur.set idx
              { gcur.getD idx default with
                output_inst := { (gcur.getD idx default).output_inst with
                  arg := ((gcur.getD idx default).output_inst.arg).with_advance_offset
                    (-minCase (gcur.getD idx default))
                  alt := ((gcur.getD idx default).output_inst.alt).with_advance_offset
                    (-minCase (gcur.getD idx default)) } },
             tbl2,
             blocks ++
               [⟨ASM_LABEL,
                  switch_lo_table ((gcur.getD idx default).output_inst.arg.data),
                  locNone⟩
                 :: tbl2.map (fun loc => ⟨ASM_DATA, loc.with_is IS_PTR, locNone⟩)
                 ++ ⟨ASM_LABEL,
                      switch_hi_table ((gcur.getD idx default).output_inst.arg.data),
                      locNone⟩
                 :: tbl2.map (fun loc => ⟨ASM_DATA, loc.with_is IS_PTR_HI, locNone⟩)])
        ∧ tbl2.length = (maxCase (gcur.getD idx default)
            - minCase (gcur.getD idx default) + 1).toNat
        ∧ ∀ e ∈ (gcur.getD idx default).outputs,
            tbl2[(e.2 - minCase (gcur.getD idx default)).toNat]?
              = some ((get_label ord e.1
                  (gcur.getD e.1 default)).with_advance_offset (-1)) := by
  refine ⟨rfl, ?_⟩
  set node := gcur.getD idx default with hnode
  set mn := minCase node with hmn
  set mx := maxCase node with hmx
  set node' : lnode :=
    { node with output_inst := { node.output_inst with
        arg := node.output_inst.arg.with_advance_offset (-mn)
        alt := node.output_inst.alt.with_advance_offset (-mn) } } with hnode'
  set gset := gcur.set idx node' with hgset
  set tbl1 := resizeFill tbl (mx - mn + 1).toNat (const_byte 0) with htbl1
  refine ⟨fillTable ord gset mn tbl1 node', ?_, ?_, ?_⟩
  · have hsw' : Q.is_switch_op ((gcur[idx]?.getD default)).output_inst.op = true := by
      rw [← List.getD_eq_getElem?_getD]
      exact hsw
    simp only [prepNode]
    rw [if_neg (by simp [hsw'])]
    rfl
  · unfold fillTable
    rw [foldl_set_length (fun e => (get_label ord e.1
        (gset.getD e.1 default)).with_advance_offset (-1))
      (fun e => (e.2 - mn).toNat) node'.outputs tbl1]
    exact resizeFill_length tbl _ _
  · intro e he
    have hbound : ∀ x ∈ node'.outputs, (x.2 - mn).toNat < tbl1.length := by
      intro x hx
      rw [htbl1, resizeFill_length]
      have h1 := minCase_le node x hx
      have h2 := maxCase_ge node x hx
      omega
    have hpw : node'.outputs.Pairwise
        (fun a b => ¬(a.2 - mn).toNat = (b.2 - mn).toNat) := by
      refine List.Pairwise.imp_of_mem ?_ hdist
      intro a b ha hb hne
      have h1 := minCase_le node a ha
      have h2 := minCase_le node b hb
      intro hcon
      exact hne (by omega)
    have hget := foldl_set_get (fun e => (get_label ord e.1
        (gset.getD e.1 default)).with_advance_offset (-1))
      (fun e => (e.2 - mn).toNat) node'.outputs tbl1 hbound hpw e he
    have hlbl : get_label ord e.1 (gset.getD e.1 default)
        = get_label ord e.1 (gcur.getD e.1 default) := by
      apply get_label_label
      rw [hgset]
      exact getD_set_label gcur idx e.1 node' rfl
    unfold fillTable
    rw [hget]
    simp only [List.getD_eq_getElem?_getD] at hlbl ⊢
    rw [hlbl]

/-- Witness for C5 at the one-edge switch node. -/
theorem c5_witness :
    ((prepNode Qw [0] ([nodeW], [], []) 0).2.1).length
      = (maxCase (([nodeW] : List lnode).getD 0 default)
        - minCase (([nodeW] : List lnode).getD 0 default) + 1).toNat := by
  obtain ⟨-, tbl2, heq, hlen, -⟩ :=
    c5_switch_table_emission Qw locNone [] [0] [nodeW] [] [] 0 rfl
      (by decide) (by simp [nodeW])
  rw [heq]
  exact hlen

end ToLinear
